import Mathlib

/-!
Verification of the webcrawler backend (crawl engine, URL frontier, SSRF guard,
storage, path registry, fetcher) against its specification.

The TypeScript sources are shallowly embedded as executable Lean definitions.
URL parsing in the source is done by the WHATWG `URL` class; the model
`parseUrlCore` implements that parser on a restricted input grammar (ASCII
components, lowercase scheme and host, no percent-escapes, no dot-segments,
no user-info, canonical dotted-quad IPv4 hosts) on which the WHATWG parser
acts exactly as the model does: parsing succeeds, components are taken
verbatim, and default ports of special schemes are dropped.  Strings outside
that grammar are mapped to `none` (the model's domain is the subset).
Wall-clock timestamps (`Date.now()`), random jitter and I/O timing are not
modelled; where the source uses them (queue timestamps, retry delays) the
fields are omitted or abstracted, as noted at each definition.
-/

namespace Crawl

/-! ## Character classes of the modelled URL grammar -/

/-- ASCII lowercase letter. -/
def isLower (c : Char) : Bool := 97 ≤ c.toNat && c.toNat ≤ 122

/-- ASCII uppercase letter. -/
def isUpper (c : Char) : Bool := 65 ≤ c.toNat && c.toNat ≤ 90

/-- ASCII digit. -/
def isDigitC (c : Char) : Bool := 48 ≤ c.toNat && c.toNat ≤ 57

/-- Characters admitted in a scheme (lowercase subset of RFC 3986 scheme). -/
def isSchemeChar (c : Char) : Bool :=
  isLower c || isDigitC c || c == '+' || c == '-' || c == '.'

/-- Characters admitted in a host (lowercase letters, digits, `.`, `-`, `_`). -/
def isHostChar (c : Char) : Bool :=
  isLower c || isDigitC c || c == '.' || c == '-' || c == '_'

/-- Characters admitted in a path. -/
def isPathChar (c : Char) : Bool :=
  isLower c || isUpper c || isDigitC c || c == '/' || c == '-' || c == '_' ||
  c == '.' || c == '~'

/-- Characters admitted in a query: the characters that the
application/x-www-form-urlencoded codec leaves unchanged, plus the
structural `=` and `&`. -/
def isQueryChar (c : Char) : Bool :=
  isLower c || isUpper c || isDigitC c || c == '-' || c == '_' || c == '.' ||
  c == '*' || c == '=' || c == '&'

/-! ## Generic list helpers -/

/-- Split a character list at every occurrence of the separator. -/
def splitOnChar (sep : Char) : List Char → List (List Char)
  | [] => [[]]
  | c :: cs =>
    let rest := splitOnChar sep cs
    if c == sep then [] :: rest
    else match rest with
      | [] => [[c]]
      | r :: rs => (c :: r) :: rs

/-- Index of the last occurrence of `c`, as a JS-style index (−1 if absent). -/
def lastIdxAux (c : Char) : List Char → Nat → Option Nat → Option Nat
  | [], _, acc => acc
  | x :: xs, i, acc => lastIdxAux c xs (i + 1) (if x == c then some i else acc)

/-- JS `String.prototype.lastIndexOf` for a single character. -/
def lastIdx (l : List Char) (c : Char) : Int :=
  match lastIdxAux c l 0 none with
  | some n => (n : Int)
  | none => -1

/-- JS `String.prototype.endsWith` for the model strings. -/
def listEndsWith (l suffix : List Char) : Bool :=
  decide (suffix.isSuffixOf l)

/-! ## The URL data model -/

/-- Components of a parsed URL (shallow embedding of the WHATWG `URL`
record for the modelled grammar).  `query = some []` is an empty-but-present
query (`http://h/?`), `query = none` no query at all.  The port is kept as
its canonical digit string (`url.port` is a string in the source); the
modelled grammar admits only ports already in canonical decimal form, on
which the WHATWG serialisation is the identity. -/
structure UrlC where
  scheme : List Char
  host : List Char
  port : Option (List Char)
  path : List Char
  query : Option (List Char)
  frag : Option (List Char)
  deriving Repr, DecidableEq

/-- WHATWG special schemes. -/
def specialSchemes : List (List Char) :=
  ["http".data, "https".data, "ws".data, "wss".data, "ftp".data, "file".data]

/-- Default port of a special scheme, as dropped by the WHATWG parser. -/
def defaultPort (scheme : List Char) : Option Nat :=
  if scheme = "http".data then some 80
  else if scheme = "https".data then some 443
  else if scheme = "ws".data then some 80
  else if scheme = "wss".data then some 443
  else if scheme = "ftp".data then some 21
  else none

/-- Digits of a decimal numeral to its value. -/
def digitsToNat : List Char → Nat
  | [] => 0
  | c :: cs => digitsToNat cs + c.toNat % 48 * 10 ^ cs.length

/-- A canonical dotted-quad IPv4 label: 1–3 digits, value ≤ 255, no leading
zero (the inputs on which the WHATWG IPv4 canonicalisation is the
identity). -/
def isCanonIPv4Label (l : List Char) : Bool :=
  l.all isDigitC && decide (l ≠ []) && decide (l.length ≤ 3) &&
  decide (digitsToNat l ≤ 255) && !(decide (l.length > 1) && decide (l.take 1 = ['0']))

/-- Validity of a host in the modelled grammar.  Labels are non-empty; if the
last label is numeric the host must be a canonical dotted-quad IPv4 address
(on any other numeric-looking host the WHATWG parser would rewrite or reject
the host, so those strings are outside the model's domain). -/
def hostOk (h : List Char) : Bool :=
  h.all isHostChar && decide (h ≠ []) &&
  (splitOnChar '.' h).all (fun l => decide (l ≠ [])) &&
  (let labels := splitOnChar '.' h
   match labels.getLast? with
   | none => false
   | some last =>
     if last.all isDigitC then
       decide (labels.length = 4) && labels.all isCanonIPv4Label
     else true)

/-- Path segment check: the modelled grammar excludes `.` and `..` segments
(the WHATWG parser resolves those, so strings containing them are outside
the model's domain). -/
def pathOk (p : List Char) : Bool :=
  p.all isPathChar && decide (p.take 1 = ['/']) &&
  (splitOnChar '/' p).all (fun seg => decide (seg ≠ ['.']) && decide (seg ≠ ['.', '.']))

/-- Query check: charset, and at most one `=` per `&`-separated segment (with
two or more `=` the form-urlencoded round trip percent-escapes, leaving the
modelled grammar). -/
def queryOk (q : List Char) : Bool :=
  q.all isQueryChar &&
  (splitOnChar '&' q).all (fun seg => decide ((seg.filter (· == '=')).length ≤ 1))

/-- A canonical port digit string: non-empty digits, no leading zero, value
at most 65535 (ports outside this form are rewritten by the WHATWG parser
and hence outside the modelled grammar). -/
def portDigitsOk (ds : List Char) : Bool :=
  ds.all isDigitC && decide (ds ≠ []) && decide (digitsToNat ds ≤ 65535) &&
  !(decide (ds.length > 1) && decide (ds.take 1 = ['0']))

/-- Parser stage: everything after the query — an optional `#fragment`. -/
def parseAfterQuery (scheme host : List Char) (port : Option (List Char))
    (path : List Char) (query : Option (List Char)) :
    List Char → Option UrlC
  | '#' :: r => some ⟨scheme, host, port, path, query, some r⟩
  | [] => some ⟨scheme, host, port, path, query, none⟩
  | _ => none

/-- Parser stage: an optional `?query`, then the fragment. -/
def parseAfterPath (scheme host : List Char) (port : Option (List Char))
    (path : List Char) (rest : List Char) : Option UrlC :=
  match rest with
  | '?' :: r =>
    let q := r.takeWhile (· != '#')
    let r2 := r.dropWhile (· != '#')
    if queryOk q then parseAfterQuery scheme host port path (some q) r2 else none
  | r => parseAfterQuery scheme host port path none r

/-- Parser stage: the path (special schemes normalise a missing path to
`/`), then query and fragment.  The default port of a special scheme is
dropped here, exactly as the WHATWG parser does. -/
def parseAfterPort (scheme host : List Char) (port0 : Option (List Char))
    (rest : List Char) : Option UrlC :=
  let port := if port0.map digitsToNat = defaultPort scheme then none else port0
  match rest with
  | '/' :: r0 =>
    let p := ('/' :: r0).takeWhile isPathChar
    let r := ('/' :: r0).dropWhile isPathChar
    if pathOk p then parseAfterPath scheme host port p r else none
  | r =>
    if specialSchemes.contains scheme then parseAfterPath scheme host port ['/'] r
    else none

/-- Parser stage: an optional `:port` (empty port allowed), then path,
query, fragment. -/
def parseAfterHost (scheme host : List Char) (rest : List Char) : Option UrlC :=
  match rest with
  | ':' :: r =>
    let digits := r.takeWhile isDigitC
    let r2 := r.dropWhile isDigitC
    if digits = [] then parseAfterPort scheme host none r2
    else if portDigitsOk digits then
      parseAfterPort scheme host (some digits) r2
    else none
  | r => parseAfterPort scheme host none r

/-- Parser stage: the host after `//`. -/
def parseAuthority (scheme : List Char) (rest : List Char) : Option UrlC :=
  let host := rest.takeWhile isHostChar
  let rest3 := rest.dropWhile isHostChar
  if !hostOk host then none
  else parseAfterHost scheme host rest3

/-- Parser for the modelled URL grammar; mirrors `new URL(urlString)` on that
grammar and returns `none` outside it. -/
def parseUrlCore (cs : List Char) : Option UrlC :=
  let scheme := cs.takeWhile isSchemeChar
  let rest := cs.dropWhile isSchemeChar
  if scheme = [] then none
  else if !(scheme.take 1).all isLower then none
  else match rest with
  | ':' :: '/' :: '/' :: rest2 => parseAuthority scheme rest2
  | _ => none

/-- Serialised port component. -/
def serializePort : Option (List Char) → List Char
  | some ds => ':' :: ds
  | none => []

/-- Serialised query component. -/
def serializeQuery : Option (List Char) → List Char
  | some q => '?' :: q
  | none => []

/-- Serialised fragment component. -/
def serializeFrag : Option (List Char) → List Char
  | some f => '#' :: f
  | none => []

/-- Serialiser (the `href` of the record). -/
def serializeCore (u : UrlC) : List Char :=
  u.scheme ++ (':' :: '/' :: '/' :: u.host) ++ serializePort u.port ++
  u.path ++ serializeQuery u.query ++ serializeFrag u.frag

/-- Wellformedness of a scheme in the modelled grammar. -/
def schemeWF (s : List Char) : Bool :=
  decide (s ≠ []) && s.all isSchemeChar && (s.take 1).all isLower

/-- Wellformedness of a port relative to its scheme (canonical digits, not
the scheme's default). -/
def portWF (scheme : List Char) : Option (List Char) → Bool
  | none => true
  | some ds => portDigitsOk ds && !(decide (some (digitsToNat ds) = defaultPort scheme))

/-- Wellformedness of a query. -/
def queryWF : Option (List Char) → Bool
  | none => true
  | some q => queryOk q

/-- Wellformedness of a parsed URL record: exactly the invariants
established by `parseUrlCore` (the fragment is unconstrained). -/
def UrlWF (u : UrlC) : Bool :=
  schemeWF u.scheme && hostOk u.host && portWF u.scheme u.port &&
  pathOk u.path && queryWF u.query

/-! ## Query-parameter sorting (URLSearchParams round trip) -/

/-- One `&`-segment to a key/value entry: split at the first `=`. -/
def segToEntry (seg : List Char) : List Char × List Char :=
  ((seg.takeWhile (· != '=')),
   match seg.dropWhile (· != '=') with
   | [] => []
   | _ :: v => v)

/-- `new URLSearchParams(q)`: `&`-split, empty segments skipped, first-`=`
split; percent-decoding is the identity on the modelled charset. -/
def parseQueryEntries (q : List Char) : List (List Char × List Char) :=
  (splitOnChar '&' q).filterMap fun seg =>
    if seg = [] then none else some (segToEntry seg)

/-- `URLSearchParams.toString` on the modelled charset: always `key=value`,
joined with `&`. -/
def serializeEntries (es : List (List Char × List Char)) : List Char :=
  match es with
  | [] => []
  | [(k, v)] => k ++ '=' :: v
  | (k, v) :: rest => k ++ '=' :: v ++ '&' :: serializeEntries rest

/-- The JS default sort key of an entry: `[k, v].toString() = k + "," + v`. -/
def entryKey (e : List Char × List Char) : List Char := e.1 ++ ',' :: e.2

/-- Lexicographic comparison of char lists by code point (the JS `<` on the
modelled ASCII strings). -/
def listLe : List Char → List Char → Bool
  | [], _ => true
  | _ :: _, [] => false
  | a :: as, b :: bs =>
    if a.toNat < b.toNat then true
    else if a.toNat > b.toNat then false
    else listLe as bs

/-- Stable insertion into a sorted list (model of the stable JS sort). -/
def insertEntry (e : List Char × List Char) :
    List (List Char × List Char) → List (List Char × List Char)
  | [] => [e]
  | x :: xs =>
    if listLe (entryKey e) (entryKey x) then e :: x :: xs
    else x :: insertEntry e xs

/-- Stable sort by the JS default comparator. -/
def sortEntries : List (List Char × List Char) → List (List Char × List Char)
  | [] => []
  | e :: es => insertEntry e (sortEntries es)

/-- Wellformedness of a query entry: key and value are `&`- and `=`-free
query-charset strings. -/
def entryWF (e : List Char × List Char) : Bool :=
  e.1.all (fun c => isQueryChar c && c != '&' && c != '=') &&
  e.2.all (fun c => isQueryChar c && c != '&' && c != '=')

/-- Comparator order on entries. -/
def pairLe (a b : List Char × List Char) : Bool := listLe (entryKey a) (entryKey b)

/-- The list is sorted for the comparator. -/
def chainLe : List (List Char × List Char) → Bool
  | [] => true
  | [_] => true
  | a :: b :: rest => pairLe a b && chainLe (b :: rest)

/-- A path ending in a double slash (other than the bare `//`, which strips
to the root): exactly the paths on which the single trailing-slash strip of
`normalizeUrl` is not idempotent. -/
def doubleSlashTail (p : List Char) : Bool :=
  listEndsWith p ['/', '/'] && !(p == ['/', '/'])

/-! ## `normalizeUrl` (src/backend/src/utils/url.ts) -/

/-- JS `toLowerCase` on the modelled ASCII strings. -/
def lowerList (l : List Char) : List Char := l.map Char.toLower

/-- `url.pathname.slice(0, -1)` applied when the path is a non-root path
ending in `/` (the trailing-slash strip of `normalizeUrl`). -/
def stripTrailingSlash (p : List Char) : List Char :=
  if p ≠ ['/'] && listEndsWith p ['/'] then p.dropLast else p

/-- The query-sorting step of `normalizeUrl`: when `url.search` is non-empty,
re-serialise the sorted parameters; assigning an empty string to `url.search`
removes the query. -/
def sortQueryStep (u : UrlC) : UrlC :=
  match u.query with
  | some q =>
    if q = [] then u
    else
      let s := serializeEntries (sortEntries (parseQueryEntries q))
      if s = [] then { u with query := none } else { u with query := some s }
  | none => u

/-- The component-level normalisation performed by `normalizeUrl`: lowercase
protocol and hostname, drop default http/https ports, strip one trailing
slash from a non-root path, sort the query parameters, drop the fragment. -/
def normParts (u : UrlC) : UrlC :=
  let u := { u with scheme := lowerList u.scheme, host := lowerList u.host }
  let u := if (u.scheme = "http".data && u.port = some "80".data) ||
              (u.scheme = "https".data && u.port = some "443".data)
           then { u with port := none } else u
  let u := { u with path := stripTrailingSlash u.path }
  let u := sortQueryStep u
  { u with frag := none }

/-- `normalizeUrl(urlString)` (base-less form): parse, normalise, serialise;
`null` on parse failure. -/
def normalizeUrl (s : String) : Option String :=
  (parseUrlCore s.data).map fun u => ⟨serializeCore (normParts u)⟩

/-! ## Other url.ts utilities -/

/-- `getDomain`: hostname of the URL, lowercased; `null` on parse failure. -/
def getDomain (s : String) : Option String :=
  (parseUrlCore s.data).map fun u => ⟨lowerList u.host⟩

/-- The common second-level TLD list of `getBaseDomain`. -/
def commonSecondLevelTLDs : List String := ["co", "com", "org", "net", "gov", "edu", "ac"]

/-- `getBaseDomain`: registrable domain by the source's label heuristic. -/
def getBaseDomain (s : String) : Option String :=
  match getDomain s with
  | none => none
  | some domain =>
    let parts := (splitOnChar '.' domain.data).map (fun l => (⟨l⟩ : String))
    if parts.length ≤ 2 then some domain
    else
      let lastPart := parts.getD (parts.length - 2) ""
      if commonSecondLevelTLDs.contains lastPart && parts.length > 2 then
        some (String.intercalate "." (parts.drop (parts.length - 3)))
      else
        some (String.intercalate "." (parts.drop (parts.length - 2)))

/-- The scope argument of `isInScope` (the queue maps `custom` to
`same-domain` before calling; the switch's default returns false). -/
inductive Scope where
  | sameDomain | sameHost | subdomains | custom
  deriving Repr, DecidableEq

/-- `isInScope(url, seedUrl, scope)`. -/
def isInScope (url seedUrl : String) (scope : Scope) : Bool :=
  match getDomain url, getDomain seedUrl with
  | some urlDomain, some seedDomain =>
    match scope with
    | .sameHost => urlDomain == seedDomain
    | .sameDomain => getBaseDomain url == getBaseDomain seedUrl
    | .subdomains =>
      match getBaseDomain seedUrl with
      | some baseDomain =>
        urlDomain == baseDomain ||
        listEndsWith urlDomain.data ('.' :: baseDomain.data)
      | none => listEndsWith urlDomain.data ['.']  -- unreachable: seed parsed
    | .custom => false
  | _, _ => false

/-- Glob matching of the regex built by `matchesPattern` (`*` ↦ `.*`,
`?` ↦ `.`, all other characters literal after escaping), on
already-lowercased strings. -/
def globMatch : List Char → List Char → Bool
  | [], [] => true
  | '*' :: ps, [] => globMatch ps []
  | _ :: _, [] => false
  | [], _ :: _ => false
  | p :: ps, c :: cs =>
    if p == '*' then globMatch ps (c :: cs) || globMatch ('*' :: ps) cs
    else if p == '?' then globMatch ps cs
    else p == c && globMatch ps cs
  termination_by l₁ l₂ => (l₁.length, l₂.length)

/-- `matchesPattern(url, pattern)`: case-insensitive anchored glob match. -/
def matchesPattern (url pattern : String) : Bool :=
  globMatch (lowerList pattern.data) (lowerList url.data)

/-- File-type categories of `getMimeCategory`. -/
inductive MimeCategory where
  | html | css | js | images | fonts | media | documents | other
  deriving Repr, DecidableEq

/-- `getMimeCategory(ext)`: the source's fixed extension table. -/
def getMimeCategory (ext : String) : MimeCategory :=
  let e := lowerList ext.data
  let e := match e with | '.' :: r => r | r => r  -- replace(/^\./, '')
  match (⟨e⟩ : String) with
  | "html" | "htm" | "xhtml" => .html
  | "css" | "scss" | "sass" | "less" => .css
  | "js" | "mjs" | "jsx" | "ts" | "tsx" => .js
  | "jpg" | "jpeg" | "png" | "gif" | "webp" | "svg" | "ico" | "bmp" | "avif" => .images
  | "woff" | "woff2" | "ttf" | "otf" | "eot" => .fonts
  | "mp4" | "webm" | "ogg" | "mp3" | "wav" | "flac" => .media
  | "pdf" | "doc" | "docx" | "xls" | "xlsx" | "ppt" | "pptx" => .documents
  | _ => .other

/-- The extension extraction on a pathname: characters after the last `.` if
it comes after the last `/`, lowercased. -/
def extFromPath (p : List Char) : String :=
  let lastDot := lastIdx p '.'
  let lastSlash := lastIdx p '/'
  if lastDot > lastSlash && lastDot ≠ -1 then
    ⟨lowerList (p.drop (lastDot.toNat + 1))⟩
  else ""

/-- `getExtensionFromUrl(urlString)`: parse, then extract from the pathname;
empty string when `new URL` throws. -/
def getExtensionFromUrl (s : String) : String :=
  match parseUrlCore s.data with
  | none => ""
  | some u => extFromPath u.path

/-! ## The URL frontier (src/backend/src/crawler/queue.ts) -/

/-- The `fileTypes` option object (all eight keys are present after schema
validation). -/
structure FileTypes where
  html : Bool
  css : Bool
  js : Bool
  images : Bool
  fonts : Bool
  media : Bool
  documents : Bool
  other : Bool
  deriving Repr, DecidableEq

/-- `fileTypes[category]` as a Boolean field access. -/
def FileTypes.field (ft : FileTypes) : MimeCategory → Bool
  | .html => ft.html
  | .css => ft.css
  | .js => ft.js
  | .images => ft.images
  | .fonts => ft.fonts
  | .media => ft.media
  | .documents => ft.documents
  | .other => ft.other

/-- The crawl options consulted by the queue and engine.  Fields the claims
never touch (timing, concurrency, headers, robots, redirects) are omitted. -/
structure CrawlOptions where
  url : String
  scope : Scope
  customDomains : Option (List String)
  includePaths : Option (List String)
  excludePaths : Option (List String)
  unlimitedMode : Bool
  maxDepth : Nat
  maxPages : Nat
  fileTypes : Option FileTypes
  followRedirects : Bool := true
  maxRedirects : Nat := 10
  deriving Repr, DecidableEq

/-- Frontier entry status. -/
inductive UrlStatus where
  | pending | inProgress | complete | failed | skipped
  deriving Repr, DecidableEq

/-- A frontier entry.  The wall-clock fields `addedAt` and `processedAt` of
the source are not modelled. -/
structure QueuedUrl where
  url : String
  normalizedUrl : String
  depth : Nat
  parentUrl : Option String
  status : UrlStatus
  retries : Nat
  error : Option String := none
  deriving Repr, DecidableEq

/-- The `UrlQueue`: the `Map` is an insertion-ordered association list. -/
structure UrlQueue where
  entries : List (String × QueuedUrl)
  pendingUrls : List String
  seedUrl : String
  options : CrawlOptions
  deriving Repr, DecidableEq

namespace UrlQueue

/-- `Map.get`. -/
def getEntry (q : UrlQueue) (n : String) : Option QueuedUrl :=
  (q.entries.find? (fun e => e.1 == n)).map (·.2)

/-- `Map.has`. -/
def hasEntry (q : UrlQueue) (n : String) : Bool :=
  (q.getEntry n).isSome

/-- `Map.set` on a key not already present (the only way the queue inserts). -/
def push (q : UrlQueue) (n : String) (item : QueuedUrl) : UrlQueue :=
  { q with entries := q.entries ++ [(n, item)],
           pendingUrls := q.pendingUrls ++ [n] }

/-- The constructor: seeds the frontier when the seed URL normalises, and
silently builds an empty frontier otherwise. -/
def init (seedUrl : String) (options : CrawlOptions) : UrlQueue :=
  let q : UrlQueue := { entries := [], pendingUrls := [], seedUrl := seedUrl,
                        options := options }
  match normalizeUrl seedUrl with
  | some normalized =>
    q.push normalized { url := seedUrl, normalizedUrl := normalized, depth := 0,
                        parentUrl := none, status := .pending, retries := 0 }
  | none => q

/-- The hostname read by the custom-domains check (`new URL(normalized)`;
a normalised URL always re-parses, so the `none` branch is unreachable). -/
def hostOf (s : String) : String :=
  match parseUrlCore s.data with
  | some u => ⟨u.host⟩
  | none => ""

/-- The file-type filter shared by `add` and `addAsset`: reject exactly when
the URL's category is explicitly disabled. -/
def fileTypePasses (options : CrawlOptions) (normalized : String) : Bool :=
  match options.fileTypes with
  | none => true
  | some ft =>
    let ext := getExtensionFromUrl normalized
    let category := getMimeCategory ext
    ft.field category

/-- The file-type check and insertion shared suffix of `add`. -/
def addFileTypeTail (q : UrlQueue) (url parentUrl : String) (depth : Nat)
    (normalized : String) : Bool × UrlQueue :=
  if !fileTypePasses q.options normalized then (false, q)
  else
    (true, q.push normalized
      { url := url, normalizedUrl := normalized, depth := depth,
        parentUrl := some parentUrl, status := .pending, retries := 0 })

/-- The exclude-pattern check and the remainder of `add`. -/
def addExcludeTail (q : UrlQueue) (url parentUrl : String) (depth : Nat)
    (normalized : String) : Bool × UrlQueue :=
  match q.options.excludePaths with
  | some pats =>
    if pats.length > 0 && (pats.any fun pattern => matchesPattern normalized pattern) then
      (false, q)
    else addFileTypeTail q url parentUrl depth normalized
  | none => addFileTypeTail q url parentUrl depth normalized

/-- The include/exclude-pattern and file-type checks and the final insertion
of `add` (the part after the scope checks). -/
def addChecksTail (q : UrlQueue) (url parentUrl : String) (depth : Nat)
    (normalized : String) : Bool × UrlQueue :=
  match q.options.includePaths with
  | some pats =>
    if pats.length > 0 && !(pats.any fun pattern => matchesPattern normalized pattern) then
      (false, q)
    else addExcludeTail q url parentUrl depth normalized
  | none => addExcludeTail q url parentUrl depth normalized

/-- `UrlQueue.add(url, parentUrl, depth)`: the page admission predicate;
returns the Boolean result and the updated queue. -/
def add (q : UrlQueue) (url parentUrl : String) (depth : Nat) : Bool × UrlQueue :=
  match normalizeUrl url with
  | none => (false, q)
  | some normalized =>
    if q.hasEntry normalized then (false, q)
    else if !q.options.unlimitedMode && decide (depth > q.options.maxDepth) then (false, q)
    else if !q.options.unlimitedMode && decide (q.entries.length ≥ q.options.maxPages) then (false, q)
    else
      let scope := if q.options.scope = .custom then .sameDomain else q.options.scope
      if !isInScope normalized q.seedUrl scope then (false, q)
      else if q.options.scope = .custom && q.options.customDomains.isSome then
        let urlHost := hostOf normalized
        let ds := q.options.customDomains.getD []
        if !(ds.any fun d => urlHost == d || listEndsWith urlHost.data ('.' :: d.data)) then
          (false, q)
        else addChecksTail q url parentUrl depth normalized
      else addChecksTail q url parentUrl depth normalized

/-- `UrlQueue.addAsset(url, parentUrl, depth)`: the asset admission
predicate — canonicalise, de-duplicate, relaxed depth ceiling
(`maxDepth + 5`), page-count ceiling, file-type filter, and **no scope
check**. -/
def addAsset (q : UrlQueue) (url parentUrl : String) (depth : Nat) : Bool × UrlQueue :=
  match normalizeUrl url with
  | none => (false, q)
  | some normalized =>
    if q.hasEntry normalized then (false, q)
    else if !q.options.unlimitedMode && decide (depth > q.options.maxDepth + 5) then (false, q)
    else if !q.options.unlimitedMode && decide (q.entries.length ≥ q.options.maxPages) then (false, q)
    else if !fileTypePasses q.options normalized then (false, q)
    else
      (true, q.push normalized
        { url := url, normalizedUrl := normalized, depth := depth,
          parentUrl := some parentUrl, status := .pending, retries := 0 })

/-- Update the entry stored under a key. -/
def setStatus (q : UrlQueue) (n : String) (f : QueuedUrl → QueuedUrl) : UrlQueue :=
  { q with entries := q.entries.map fun e => if e.1 == n then (e.1, f e.2) else e }

/-- Walk the pending list for the oldest entry still `pending`, skipping
stale keys; returns the popped entry (marked in-progress), its key, and the
remaining pending list. -/
def nextAux (entries : List (String × QueuedUrl)) :
    List String → Option (String × QueuedUrl) × List String
  | [] => (none, [])
  | n :: rest =>
    match (entries.find? (fun e => e.1 == n)).map (·.2) with
    | some item =>
      if item.status = .pending then
        (some (n, { item with status := .inProgress }), rest)
      else nextAux entries rest
    | none => nextAux entries rest

/-- `UrlQueue.next()`: pop the oldest pending URL, mark it in-progress. -/
def next (q : UrlQueue) : Option QueuedUrl × UrlQueue :=
  match nextAux q.entries q.pendingUrls with
  | (some (n, item), rest) =>
    (some item,
     { q.setStatus n (fun it => { it with status := .inProgress }) with
         pendingUrls := rest })
  | (none, rest) => (none, { q with pendingUrls := rest })

/-- `UrlQueue.complete`. -/
def complete (q : UrlQueue) (n : String) : UrlQueue :=
  q.setStatus n fun it => { it with status := .complete }

/-- `UrlQueue.fail`. -/
def fail (q : UrlQueue) (n : String) (error : String) : UrlQueue :=
  q.setStatus n fun it => { it with status := .failed, error := some error }

/-- `UrlQueue.skip`. -/
def skip (q : UrlQueue) (n : String) (reason : String) : UrlQueue :=
  q.setStatus n fun it => { it with status := .skipped, error := some reason }

/-- `UrlQueue.hasInProgress()`. -/
def hasInProgress (q : UrlQueue) : Bool :=
  q.entries.any fun e => e.2.status = .inProgress

/-- `UrlQueue.hasPending()`. -/
def hasPending (q : UrlQueue) : Bool :=
  q.pendingUrls.length > 0 || q.hasInProgress

end UrlQueue

/-! ## SSRF guard (src/backend/src/security/ssrf.ts)

DNS resolution (`dns.resolve4`) is modelled as an oracle
`dns : String → Option (List String)`; `none` is a resolution failure
(the rejected promise). -/

/-- JS `Number(part)` on the digit-run strings the guard feeds it. -/
def jsDecimal? (l : List Char) : Option Nat :=
  if l ≠ [] && l.all isDigitC then some (digitsToNat l) else none

/-- `ipToNumber(ip)`: dotted-quad string to its 32-bit value, −1 when
invalid (wrong arity, non-numeric or out-of-range part). -/
def ipToNumber (ip : String) : Int :=
  let parts := (splitOnChar '.' ip.data).map jsDecimal?
  if parts.length ≠ 4 || parts.any (fun p => p.isNone || p.getD 0 > 255) then -1
  else match parts with
    | [some a, some b, some c, some d] =>
      Int.ofNat (a * 16777216 + b * 65536 + c * 256 + d)
    | _ => -1

/-- `BLOCKED_IP_RANGES`. -/
def blockedIpRanges : List (Int × Int) :=
  [ (ipToNumber "127.0.0.0", ipToNumber "127.255.255.255"),
    (ipToNumber "10.0.0.0", ipToNumber "10.255.255.255"),
    (ipToNumber "172.16.0.0", ipToNumber "172.31.255.255"),
    (ipToNumber "192.168.0.0", ipToNumber "192.168.255.255"),
    (ipToNumber "169.254.0.0", ipToNumber "169.254.255.255"),
    (ipToNumber "255.255.255.255", ipToNumber "255.255.255.255"),
    (ipToNumber "0.0.0.0", ipToNumber "0.255.255.255") ]

/-- `BLOCKED_HOSTS`. -/
def blockedHosts : List String :=
  ["localhost", "localhost.localdomain", "metadata.google.internal",
   "metadata.gke.internal"]

/-- `BLOCKED_METADATA_IPS`. -/
def blockedMetadataIPs : List String := ["169.254.169.254", "fd00:ec2::254"]

/-- `isPrivateIP(ip)`. -/
def isPrivateIP (ip : String) : Bool :=
  let ipNum := ipToNumber ip
  if ipNum = -1 then true
  else if blockedIpRanges.any (fun r => r.1 ≤ ipNum && ipNum ≤ r.2) then true
  else blockedMetadataIPs.contains ip

/-- The literal-IPv4 test `/^(\d{1,3}\.){3}\d{1,3}$/`: four dot-separated
runs of one to three digits. -/
def isIPv4Shape (h : String) : Bool :=
  let parts := splitOnChar '.' h.data
  parts.length == 4 &&
  parts.all (fun p => decide (p ≠ []) && decide (p.length ≤ 3) && p.all isDigitC)

/-- `isBlockedHost(hostname)`. -/
def isBlockedHost (hostname : String) : Bool :=
  let normalized : String := ⟨lowerList hostname.data⟩
  blockedHosts.contains normalized ||
  (isIPv4Shape normalized && isPrivateIP normalized) ||
  normalized == "::1" || normalized == "[::1]"

/-- `SSRFValidationResult`. -/
structure SSRFValidationResult where
  safe : Bool
  reason : Option String := none
  resolvedIP : Option String := none
  deriving Repr, DecidableEq

/-- `validateUrlForSSRF(urlString, allowedProtocols)` with the DNS oracle. -/
def validateUrlForSSRF (dns : String → Option (List String)) (urlString : String)
    (allowedProtocols : List String) : SSRFValidationResult :=
  match parseUrlCore urlString.data with
  | none => { safe := false, reason := some "Invalid URL format" }
  | some u =>
    let protocol : String := ⟨u.scheme⟩
    if !allowedProtocols.contains protocol then
      { safe := false, reason := some ("Protocol not allowed: " ++ protocol) }
    else
      let hostname : String := ⟨u.host⟩
      if isBlockedHost hostname then
        { safe := false,
          reason := some ("Hostname is blocked (internal/localhost): " ++ hostname) }
      else if isIPv4Shape hostname then
        if isPrivateIP hostname then
          { safe := false,
            reason := some ("IP is in a private/reserved range: " ++ hostname) }
        else { safe := true, resolvedIP := some hostname }
      else
        match dns hostname with
        | none =>
          { safe := false, reason := some ("DNS resolution failed: " ++ hostname) }
        | some addresses =>
          if addresses.isEmpty then
            { safe := false,
              reason := some ("Could not resolve hostname: " ++ hostname) }
          else
            match addresses.find? (fun ip => isPrivateIP ip) with
            | some ip =>
              { safe := false,
                reason := some ("Resolved IP is in a private/reserved range: " ++ ip) }
            | none => { safe := true, resolvedIP := addresses.head? }

/-! ## Storage (src/backend/src/storage/filesystem.ts)

The sandbox check `isPathWithinBase(baseDir, path.join(baseDir, rel))`
depends on the host filesystem's path resolution and is abstracted as an
oracle `withinBase : String → Bool` on the relative path; file contents are
represented by their byte length, the only attribute the control flow reads.
The `directories` counter and `createdDirs` bookkeeping are not modelled. -/

/-- Storage state: stored files as path ↦ size, plus the running stats. -/
structure StorageState where
  files : List (String × Nat)
  filesWritten : Nat
  totalBytes : Nat
  deriving Repr, DecidableEq

/-- Fresh storage after `init()`. -/
def initStorage : StorageState := { files := [], filesWritten := 0, totalBytes := 0 }

/-- Overwrite-or-append for the on-disk file map (last writer wins). -/
def upsertFile : List (String × Nat) → String → Nat → List (String × Nat)
  | [], p, n => [(p, n)]
  | (q, m) :: rest, p, n =>
    if q == p then (q, n) :: rest else (q, m) :: upsertFile rest p n

/-- `FileStorage.writeFile(relativePath, content)`: sandbox check, then the
aggregate-size ceiling (`config.maxTotalSizeBytes`), then the write; a
rejected write throws and leaves the state unchanged. -/
def writeFileM (withinBase : String → Bool) (maxTotalSizeBytes : Nat)
    (st : StorageState) (relativePath : String) (contentSize : Nat) :
    Except String StorageState :=
  if !withinBase relativePath then
    .error ("Path traversal attempt detected: " ++ relativePath)
  else if st.totalBytes + contentSize > maxTotalSizeBytes then
    .error "Total size limit exceeded"
  else
    .ok { files := upsertFile st.files relativePath contentSize,
          filesWritten := st.filesWritten + 1,
          totalBytes := st.totalBytes + contentSize }

/-- A sequence of write attempts (the engine catches a throwing write, so
the state simply survives a rejected write). -/
def applyWrites (withinBase : String → Bool) (maxTotalSizeBytes : Nat) :
    StorageState → List (String × Nat) → StorageState
  | st, [] => st
  | st, (p, n) :: rest =>
    match writeFileM withinBase maxTotalSizeBytes st p n with
    | .ok st' => applyWrites withinBase maxTotalSizeBytes st' rest
    | .error _ => applyWrites withinBase maxTotalSizeBytes st rest

/-! ## Path registry (src/backend/src/crawler/rewriter.ts)

`generateLocalPath` (sanitisation plus MD5 content hashing) is abstracted as
an oracle `gen : String → String`: the registry invariants are independent
of the candidate generator.  The safety-limit branch of `ensureUniquePath`
hashes `path + Date.now()`, abstracted as `fb : String → String`. -/

/-- The three synchronised structures of `LinkRewriter`. -/
structure RegState where
  urlToPath : List (String × String)
  pathToUrl : List (String × String)
  usedPaths : List String
  deriving Repr, DecidableEq

/-- The empty registry. -/
def emptyReg : RegState := { urlToPath := [], pathToUrl := [], usedPaths := [] }

/-- Association-list lookup (`Map.get`). -/
def assocFind (l : List (String × String)) (k : String) : Option String :=
  (l.find? (fun e => e.1 == k)).map (·.2)

/-- Split a path at its last dot: `(slice(0, lastDot), slice(lastDot))`,
or `(path, "")` when there is no dot. -/
def lastDotSplit (path : String) : String × String :=
  let i := lastIdx path.data '.'
  if i = -1 then (path, "")
  else (⟨path.data.take i.toNat⟩, ⟨path.data.drop i.toNat⟩)

/-- The collision loop of `ensureUniquePath`: try `base_1`, `base_2`, …;
when the counter passes 10000 return the hash fallback without a freshness
check. -/
def ensureAux (used : List String) (base ext fbv : String) : Nat → Nat → String
  | 0, _ => fbv
  | fuel + 1, counter =>
    let newPath := base ++ "_" ++ toString counter ++ ext
    if used.contains newPath then ensureAux used base ext fbv fuel (counter + 1)
    else newPath

/-- `ensureUniquePath(path)`. -/
def ensureUniquePath (fb : String → String) (used : List String)
    (path : String) : String :=
  if !used.contains path then path
  else
    let (base, ext) := lastDotSplit path
    ensureAux used base ext (base ++ "_" ++ fb path ++ ext) 10000 1

/-- `LinkRewriter.registerUrl(url)`: canonicalise (`none` models the throw
on an invalid URL, leaving the state unchanged), return the existing path if
the canonical URL is registered, otherwise generate a candidate, make it
unique, and record all three structures. -/
def registerUrl (gen fb : String → String) (st : RegState) (url : String) :
    Option String × RegState :=
  match normalizeUrl url with
  | none => (none, st)
  | some normalized =>
    match assocFind st.urlToPath normalized with
    | some existing => (some existing, st)
    | none =>
      let localPath := gen url
      let uniquePath := ensureUniquePath fb st.usedPaths localPath
      (some uniquePath,
       { urlToPath := st.urlToPath ++ [(normalized, uniquePath)],
         pathToUrl := st.pathToUrl ++ [(uniquePath, normalized)],
         usedPaths := st.usedPaths ++ [uniquePath] })

/-- `LinkRewriter.getLocalPath(url)`. -/
def getLocalPath (st : RegState) (url : String) : Option String :=
  match normalizeUrl url with
  | none => none
  | some normalized => assocFind st.urlToPath normalized

/-- A sequence of `registerUrl` calls. -/
def registerRun (gen fb : String → String) : RegState → List String → RegState
  | st, [] => st
  | st, u :: us => registerRun gen fb (registerUrl gen fb st u).2 us

/-- Per-call freshness of the inserted path: automatically true except when
the safety-limit hash fallback of `ensureUniquePath` collides with a used
path (the source trusts the timestamped MD5 digest to be fresh). -/
def stepFresh (gen fb : String → String) (st : RegState) (u : String) : Bool :=
  match normalizeUrl u with
  | none => true
  | some normalized =>
    match assocFind st.urlToPath normalized with
    | some _ => true
    | none => !st.usedPaths.contains (ensureUniquePath fb st.usedPaths (gen u))

/-- Freshness along a whole run. -/
def runFresh (gen fb : String → String) : RegState → List String → Bool
  | _, [] => true
  | st, u :: us =>
    stepFresh gen fb st u && runFresh gen fb (registerUrl gen fb st u).2 us

/-! ## Fetcher (src/backend/src/crawler/fetcher.ts)

The network is an oracle: `resp url attempt` is the response the server
would give to a request for `url` on the given attempt (status, parsed
`Retry-After`, `Location`, declared `Content-Length`, body length, whether
the body matches a bot-interstitial phrase), and `netErr url attempt` is
`some message` when the request raises a transport error instead.  Delay
*durations* (always jittered sleeps) are recorded by their base
milliseconds; wall-clock time itself is not modelled. -/

/-- A modelled HTTP response. -/
structure RespModel where
  status : Nat
  retryAfterSecs : Option Nat := none
  location : Option String := none
  contentType : String := ""
  contentLength : Option Nat := none
  bodyLen : Nat := 0
  bodyIsBot : Bool := false
  deriving Repr, DecidableEq

/-- `FetchResult` (headers, cookies and the body bytes themselves are not
modelled; `contentLength` is the body length as in the source). -/
structure FetchResultM where
  url : String
  finalUrl : String
  status : Nat
  contentType : String
  contentLength : Nat
  isRedirect : Bool
  redirectChain : List String
  deriving Repr, DecidableEq

/-- `FetchError`. -/
structure FetchErrorM where
  url : String
  error : String
  code : Option String := none
  retryable : Bool
  deriving Repr, DecidableEq

/-- `FetchOutcome`. -/
inductive FetchOutcomeM where
  | success (result : FetchResultM)
  | failure (error : FetchErrorM)
  deriving Repr, DecidableEq

/-- Whether an outcome is a success record. -/
def FetchOutcomeM.isSuccess : FetchOutcomeM → Bool
  | .success _ => true
  | .failure _ => false

/-- Observable side effects of a fetch: number of `rotateUserAgent()` calls
and the base milliseconds of every `delay` call. -/
structure FetchStats where
  uaRotations : Nat := 0
  delaysMs : List Nat := []
  attempts : Nat := 0
  deriving Repr, DecidableEq

/-- Substring test (JS `String.prototype.includes`) on model strings. -/
def jsIncludes (s sub : String) : Bool :=
  decide (sub.data <:+: s.data)

/-- The network/DNS oracles of a fetch. -/
structure NetOracle where
  resp : String → Nat → RespModel
  netErr : String → Nat → Option String
  dns : String → Option (List String)

/-- The options the fetcher consults. -/
structure FetchOptions where
  maxFileSize : Nat
  followRedirects : Bool := true
  maxRedirects : Nat := 10
  allowedProtocols : List String := ["http", "https"]
  deriving Repr, DecidableEq

/-- Exit of the manual redirect `while (true)` loop within one attempt. -/
inductive LoopExit where
  | retryAttempt (delayBaseMs : Nat) (rotate : Bool)
  | failed (e : FetchErrorM)
  | response (r : RespModel) (finalUrl : String) (chain : List String)
  deriving Repr, DecidableEq

/-- `new URL(location, currentUrl).href` restricted to absolute locations of
the modelled grammar (`none` models the constructor throwing). -/
def resolveLocation (loc : String) : Option String :=
  (parseUrlCore loc.data).map fun u => (⟨serializeCore u⟩ : String)

/-- One attempt's redirect loop: 429 / 403 / 503 handling, then manual
redirect following with an SSRF re-check on every target. -/
def redirectLoop (O : NetOracle) (opts : FetchOptions) (url : String)
    (attempt : Nat) (maxRetries : Nat) :
    Nat → String → List String → Nat → LoopExit
  | 0, _, _, _ =>
    -- redirect fuel exhausted: unreachable, the count check fires first
    .failed { url := url, error := "Too many redirects (max: " ++
              toString opts.maxRedirects ++ ")", retryable := false }
  | fuel + 1, currentUrl, chain, redirectCount =>
    let r := O.resp currentUrl attempt
    if r.status = 429 then
      let waitSeconds := r.retryAfterSecs.getD 60
      if attempt < maxRetries then .retryAttempt (waitSeconds * 1000) true
      else .failed { url := url
                     error := "Rate limited (429) - Retry-After: " ++ toString waitSeconds ++ "s"
                     code := some "RATE_LIMITED"
                     retryable := false }
    else if r.status = 403 && attempt < maxRetries then
      .retryAttempt 2000 true
    else if r.status = 503 && attempt < maxRetries then
      .retryAttempt ((r.retryAfterSecs.getD 5) * 1000) false
    else if opts.followRedirects &&
            [301, 302, 303, 307, 308].contains r.status then
      match r.location with
      | none => .response r currentUrl chain
      | some location =>
        match resolveLocation location with
        | none =>
          -- `new URL(location, currentUrl)` threw: caught by the outer catch
          .failed { url := url, error := "Invalid URL", code := some "UNKNOWN",
                    retryable := false }
        | some nextUrl =>
          if redirectCount + 1 > opts.maxRedirects then
            .failed { url := url, error := "Too many redirects (max: " ++
                      toString opts.maxRedirects ++ ")", retryable := false }
          else
            let ssrf := validateUrlForSSRF O.dns nextUrl opts.allowedProtocols
            if !ssrf.safe then
              .failed { url := url
                        error := "Redirect to blocked URL: " ++ (ssrf.reason.getD "")
                        retryable := false }
            else
              redirectLoop O opts url attempt maxRetries fuel nextUrl
                (chain ++ [currentUrl]) (redirectCount + 1)
    else .response r currentUrl chain

/-- `fetchWithRetry(url, referer, attempt)`: SSRF check, redirect loop,
declared- and streamed-size ceilings, bot-interstitial detection, and the
transport-error retry policy with exponential backoff. -/
def fetchWithRetry (O : NetOracle) (opts : FetchOptions) (url : String) :
    Nat → Nat → FetchStats → FetchOutcomeM × FetchStats
  | 0, _, stats => (.failure { url := url, error := "unreachable", retryable := false }, stats)
  | fuel + 1, attempt, stats =>
    let maxRetries := 5
    let stats := { stats with attempts := stats.attempts + 1 }
    let ssrfResult := validateUrlForSSRF O.dns url opts.allowedProtocols
    if !ssrfResult.safe then
      (.failure { url := url, error := ssrfResult.reason.getD "SSRF check failed",
                  retryable := false }, stats)
    else
      match O.netErr url attempt with
      | some errorMessage =>
        let isAbort := jsIncludes errorMessage "abort"
        let isTimeout := isAbort || jsIncludes errorMessage "timeout"
        let isNetwork :=
          jsIncludes errorMessage "ECONNREFUSED" ||
          jsIncludes errorMessage "ENOTFOUND" ||
          jsIncludes errorMessage "ETIMEDOUT" ||
          jsIncludes errorMessage "ECONNRESET" ||
          jsIncludes errorMessage "EPIPE" ||
          jsIncludes errorMessage "socket hang up"
        let retryable := (isTimeout || isNetwork) && attempt < maxRetries
        if retryable then
          let baseWait := 2 ^ attempt * 1000
          let stats := { stats with
            delaysMs := stats.delaysMs ++ [baseWait]
            uaRotations := stats.uaRotations + (if attempt ≥ 2 then 1 else 0) }
          fetchWithRetry O opts url fuel (attempt + 1) stats
        else
          (.failure { url := url
                      error := errorMessage
                      code := some (if isTimeout then "TIMEOUT"
                                    else if isNetwork then "NETWORK" else "UNKNOWN")
                      retryable := false }, stats)
      | none =>
        match redirectLoop O opts url attempt maxRetries
              (opts.maxRedirects + 2) url [] 0 with
        | .retryAttempt delayBase rotate =>
          let stats := { stats with
            delaysMs := stats.delaysMs ++ [delayBase]
            uaRotations := stats.uaRotations + (if rotate then 1 else 0) }
          fetchWithRetry O opts url fuel (attempt + 1) stats
        | .failed e => (.failure e, stats)
        | .response r finalUrl chain =>
          let contentLength := r.contentLength.getD 0
          if contentLength > opts.maxFileSize then
            (.failure { url := url
                        error := "File too large: " ++ toString contentLength ++
                          " bytes (max: " ++ toString opts.maxFileSize ++ ")"
                        retryable := false }, stats)
          else if r.bodyLen > opts.maxFileSize then
            (.failure { url := url
                        error := "File too large: exceeded " ++
                          toString opts.maxFileSize ++ " bytes"
                        retryable := false }, stats)
          else if r.status = 200 && jsIncludes r.contentType "text/html" &&
                  r.bodyIsBot && attempt < maxRetries then
            let stats := { stats with
              delaysMs := stats.delaysMs ++ [3000]
              uaRotations := stats.uaRotations + 1 }
            fetchWithRetry O opts url fuel (attempt + 1) stats
          else
            (.success { url := url
                        finalUrl := finalUrl
                        status := r.status
                        contentType := if r.contentType = "" then "application/octet-stream"
                                       else r.contentType
                        contentLength := r.bodyLen
                        isRedirect := chain.length > 0
                        redirectChain := chain }, stats)

/-- `Fetcher.fetch` with a fresh attempt counter (aborted/rate-limit sleeps
of the wrapper are not modelled; the attempt budget of five is). -/
def fetchM (O : NetOracle) (opts : FetchOptions) (url : String) :
    FetchOutcomeM × FetchStats :=
  fetchWithRetry O opts url 5 1 {}

/-! ## Engine (src/backend/src/crawler/engine.ts)

The engine is modelled sequentially (`concurrency = 1` interleaving): each
fetch completes, its extraction, storage write and enqueueing happen, then
the next entry is taken.  `fetcher.fetch`, the HTML/CSS extractors, the
robots predicate, the rewriters (only their output size is observable here)
and the path-candidate generator are oracles. -/

/-- Engine status. -/
inductive CrawlStatus where
  | pending | running | paused | complete | failed | cancelled
  deriving Repr, DecidableEq

/-- The oracles driving one run. -/
structure EngOracle where
  fetchO : String → FetchOutcomeM
  extractHtml : String → List (String × Bool)   -- (link.url, link.type = asset)
  extractCss : String → List String
  robotsAllowed : String → Bool
  gen : String → String
  fb : String → String
  withinBase : String → Bool
  maxTotalSizeBytes : Nat
  rewrittenSize : String → Nat                  -- size of a rewritten file

/-- Engine state. -/
structure EngState where
  queue : UrlQueue
  rewriter : RegState
  storage : StorageState
  errors : List (String × String)
  pagesProcessed : Nat
  assetsProcessed : Nat
  aborted : Bool
  deriving Repr, DecidableEq

/-- Observable actions of a run. -/
inductive EngAction where
  | fetched (url : String)
  | skippedRobots (url : String)
  | rewritePassRun (files : List String)
  | readBack (file : String)
  | writeBack (file : String)
  deriving Repr, DecidableEq

/-- Engine construction (`new CrawlEngine(jobId, url, options)` followed by
`storage.init()`). -/
def initEngine (url : String) (options : CrawlOptions) : EngState :=
  { queue := UrlQueue.init url options, rewriter := emptyReg,
    storage := initStorage, errors := [], pagesProcessed := 0,
    assetsProcessed := 0, aborted := false }

/-- `cancel()`: sets the abort flag (the status/fetcher side is reflected in
`startM`'s result). -/
def cancelM (st : EngState) : EngState := { st with aborted := true }

/-- The catch block of `processUrl`: mark failed, record the error. -/
def catchErr (st : EngState) (item : QueuedUrl) (msg : String) : EngState :=
  { st with queue := st.queue.fail item.normalizedUrl msg,
            errors := st.errors ++ [(item.url, msg)] }

/-- `processHtml`: enqueue every extracted link — assets via `addAsset` at
the same depth, pages via `add` at depth + 1 (links failing to canonicalise
are skipped). -/
def processLinksHtml (q : UrlQueue) (finalUrl : String) (depth : Nat) :
    List (String × Bool) → UrlQueue
  | [] => q
  | (linkUrl, isAsset) :: rest =>
    match normalizeUrl linkUrl with
    | none => processLinksHtml q finalUrl depth rest
    | some _ =>
      let q := if isAsset then (q.addAsset linkUrl finalUrl depth).2
               else (q.add linkUrl finalUrl (depth + 1)).2
      processLinksHtml q finalUrl depth rest

/-- `processCss`: every extracted URL is an asset at the same depth. -/
def processLinksCss (q : UrlQueue) (finalUrl : String) (depth : Nat) :
    List String → UrlQueue
  | [] => q
  | u :: rest => processLinksCss (q.addAsset u finalUrl depth).2 finalUrl depth rest

/-- `processUrl(item)`: fetch, register the final (and on redirect the
original) URL, store the body, classify by content type, extract and
enqueue, and transition the frontier entry. -/
def processUrlM (O : EngOracle) (st : EngState) (item : QueuedUrl) : EngState :=
  match O.fetchO item.url with
  | .failure e => catchErr st item e.error
  | .success fr =>
    match registerUrl O.gen O.fb st.rewriter fr.finalUrl with
    | (none, _) => catchErr st item ("Invalid URL: " ++ fr.finalUrl)
    | (some localPath, rw1) =>
      let regOrig := if fr.isRedirect then registerUrl O.gen O.fb rw1 item.url
                     else (some "", rw1)
      match regOrig with
      | (none, _) => catchErr { st with rewriter := rw1 } item
                       ("Invalid URL: " ++ item.url)
      | (_, rw2) =>
        let st := { st with rewriter := rw2 }
        let contentType : String :=
          ⟨lowerList ((splitOnChar ';' fr.contentType.data).headD [])⟩
        let isHtml := jsIncludes contentType "html"
        let isCss := jsIncludes contentType "css"
        match writeFileM O.withinBase O.maxTotalSizeBytes st.storage localPath
              fr.contentLength with
        | .error msg => catchErr st item msg
        | .ok stor =>
          let st := { st with storage := stor }
          let st :=
            if isHtml then
              { st with
                pagesProcessed := st.pagesProcessed + 1
                queue := processLinksHtml st.queue fr.finalUrl item.depth
                           (O.extractHtml fr.finalUrl) }
            else if isCss then
              { st with
                assetsProcessed := st.assetsProcessed + 1
                queue := processLinksCss st.queue fr.finalUrl item.depth
                           (O.extractCss fr.finalUrl) }
            else { st with assetsProcessed := st.assetsProcessed + 1 }
          { st with queue := st.queue.complete item.normalizedUrl }

/-- The main crawl loop: runs while the frontier has pending work and the
engine is not aborted. -/
def crawlLoopM (O : EngOracle) : Nat → EngState → EngState × List EngAction
  | 0, st => (st, [])
  | fuel + 1, st =>
    if !st.queue.hasPending || st.aborted then (st, [])
    else
      match st.queue.next with
      | (none, q') => ({ st with queue := q' }, [])
      | (some item, q') =>
        let st := { st with queue := q' }
        if !O.robotsAllowed item.url then
          let st := { st with
            queue := st.queue.skip item.normalizedUrl "Blocked by robots.txt" }
          let (st', acts) := crawlLoopM O fuel st
          (st', .skippedRobots item.url :: acts)
        else
          let st := processUrlM O st item
          let (st', acts) := crawlLoopM O fuel st
          (st', .fetched item.url :: acts)

/-- `rewriteAllLinks()`: enumerate storage; for each file classified (by
`getExtensionFromUrl` on its relative path) as HTML or CSS, read it back,
rewrite, and write the result to the same path (a throwing write is caught
per file). -/
def rewriteFileStep (O : EngOracle) (acc : StorageState × List EngAction)
    (file : String) : StorageState × List EngAction :=
  let ext := getExtensionFromUrl file
  let category := getMimeCategory ext
  if category ≠ .html && category ≠ .css then acc
  else
    match writeFileM O.withinBase O.maxTotalSizeBytes acc.1 file
          (O.rewrittenSize file) with
    | .ok stor' => (stor', acc.2 ++ [.readBack file, .writeBack file])
    | .error _ => (acc.1, acc.2 ++ [.readBack file])

/-- The iteration of `rewriteAllLinks` over the enumerated files. -/
def rewritePassM (O : EngOracle) (st : EngState) : EngState × List EngAction :=
  let files := st.storage.files.map (·.1)
  let (stor, acts) := files.foldl (rewriteFileStep O) (st.storage, [])
  ({ st with storage := stor }, .rewritePassRun files :: acts)

/-- `CrawlResult`. -/
structure CrawlResultM where
  success : Bool
  pagesProcessed : Nat
  assetsProcessed : Nat
  bytesDownloaded : Nat
  errors : List (String × String)
  deriving Repr, DecidableEq

/-- `start()` after initialisation: the crawl loop, then — unconditionally —
the link-rewrite pass, then the final status and result. -/
def startM (O : EngOracle) (fuel : Nat) (st : EngState) :
    CrawlResultM × CrawlStatus × List EngAction :=
  let (st1, acts) := crawlLoopM O fuel st
  let (st2, racts) := rewritePassM O st1
  let status := if st2.aborted then CrawlStatus.cancelled else CrawlStatus.complete
  ({ success := !st2.aborted && decide (st2.errors = []),
     pagesProcessed := st2.pagesProcessed,
     assetsProcessed := st2.assetsProcessed,
     bytesDownloaded := st2.storage.totalBytes,
     errors := st2.errors }, status, acts ++ racts)

/-! ## Concrete instances used by witnesses and counterexamples -/

/-- A same-host configuration rooted at `https://a.test/`. -/
def optsSameHost : CrawlOptions := {
  url := "https://a.test/"
  scope := .sameHost
  customDomains := none
  includePaths := none
  excludePaths := none
  unlimitedMode := false
  maxDepth := 3
  maxPages := 100
  fileTypes := none }

/-- A custom-scope configuration: seed `https://a.test/`, allow-list
`["b.test"]`. -/
def optsCustomB : CrawlOptions := {
  url := "https://a.test/"
  scope := .custom
  customDomains := some ["b.test"]
  includePaths := none
  excludePaths := none
  unlimitedMode := false
  maxDepth := 50
  maxPages := 10000
  fileTypes := none }

/-- The queue of `optsCustomB` right after construction. -/
def queueCustomB : UrlQueue := UrlQueue.init "https://a.test/" optsCustomB

/-- A custom-scope configuration whose allow-list matches the seed's own
registrable domain. -/
def optsCustomA : CrawlOptions := { optsCustomB with customDomains := some ["a.test"] }

/-- The queue of `optsCustomA` right after construction. -/
def queueCustomA : UrlQueue := UrlQueue.init "https://a.test/" optsCustomA

/-- The queue of `optsSameHost` right after construction. -/
def queueSameHost : UrlQueue := UrlQueue.init "https://a.test/" optsSameHost

/-- A DNS oracle mapping `internal.test` to a private address and everything
else to a public one. -/
def dnsTest : String → Option (List String) := fun h =>
  if h == "internal.test" then some ["10.0.0.5"]
  else if h == "multi.test" then some ["93.184.216.34", "192.168.1.7"]
  else some ["93.184.216.34"]

/-- An engine oracle whose parts are all trivial (the theorems using it do
not reach the fetch path). -/
def engOracle0 : EngOracle := {
  fetchO := fun u => .failure { url := u, error := "unreachable", retryable := false }
  extractHtml := fun _ => []
  extractCss := fun _ => []
  robotsAllowed := fun _ => true
  gen := fun _ => "a.test/index.html"
  fb := fun _ => "deadbeef"
  withinBase := fun _ => true
  maxTotalSizeBytes := 1000000
  rewrittenSize := fun _ => 10 }

/-- Engine state holding one stored HTML file and one stored CSS file, as
left by a crawl of `https://example.test/`. -/
def engStateC1 : EngState :=
  { initEngine "https://example.test/" optsSameHost with
    storage := { files := [("example.test/index.html", 100),
                           ("example.test/styles/site.css", 50)],
                 filesWritten := 2, totalBytes := 150 } }

/-- A cancelled engine state with one stored HTML file. -/
def engStateCancelled : EngState :=
  { initEngine "https://example.test/" optsSameHost with
    storage := { files := [("example.test/index.html", 100)],
                 filesWritten := 1, totalBytes := 150 },
    aborted := true }

/-- A network oracle answering 403 with an HTML body on every attempt. -/
def net403 : NetOracle := {
  resp := fun _ _ => { status := 403, contentType := "text/html", bodyLen := 10 }
  netErr := fun _ _ => none
  dns := dnsTest }

/-- The fetch options used by the fetcher witnesses. -/
def fetchOpts0 : FetchOptions := { maxFileSize := 1000000 }

/-! ## Derived predicates used in claim statements -/

/-- An address lies in a blocked range: one of the source's
`BLOCKED_IP_RANGES` (loopback 127/8, private 10/8, 172.16/12, 192.168/16,
link-local 169.254/16, broadcast, current-network 0/8) or a metadata
address. -/
def inBlockedRange (ip : String) : Bool :=
  blockedIpRanges.any (fun r => r.1 ≤ ipToNumber ip && ipToNumber ip ≤ r.2) ||
  blockedMetadataIPs.contains ip

/-- The include-pattern check of `UrlQueue.add` passes. -/
def includePass (opts : CrawlOptions) (n : String) : Bool :=
  match opts.includePaths with
  | some pats => !(pats.length > 0) || pats.any (fun p => matchesPattern n p)
  | none => true

/-- The exclude-pattern check of `UrlQueue.add` passes. -/
def excludePass (opts : CrawlOptions) (n : String) : Bool :=
  match opts.excludePaths with
  | some pats => !(decide (pats.length > 0) && pats.any (fun p => matchesPattern n p))
  | none => true

/-- The custom-domains membership test of `UrlQueue.add` (vacuously true
when `customDomains` is absent, exactly as in the source). -/
def customDomainsOk (opts : CrawlOptions) (n : String) : Bool :=
  match opts.customDomains with
  | some ds =>
    ds.any fun d => UrlQueue.hostOf n == d ||
      listEndsWith (UrlQueue.hostOf n).data ('.' :: d.data)
  | none => true

/-! ## Basic lemmas -/

/-- A string without a colon is not a URL: `new URL` throws, the model
parser returns `none`. -/
theorem parseUrlCore_none_of_no_colon (cs : List Char) (h : ':' ∉ cs) :
    parseUrlCore cs = none := by
  unfold parseUrlCore
  dsimp only
  split
  · rfl
  · split
    · rfl
    · split
      · next rest2 heq =>
        exfalso
        apply h
        apply List.dropWhile_subset isSchemeChar
        rw [heq]
        exact List.mem_cons_self _ _
      · rfl

/-- On a colon-free relative path `getExtensionFromUrl` returns the empty
string. -/
theorem getExtensionFromUrl_no_colon (f : String) (h : ':' ∉ f.data) :
    getExtensionFromUrl f = "" := by
  unfold getExtensionFromUrl
  rw [parseUrlCore_none_of_no_colon f.data h]

/-- The rewrite-pass step skips every colon-free path: its extension is
empty, its category `other`. -/
theorem rewriteFileStep_skip (O : EngOracle) (acc : StorageState × List EngAction)
    (f : String) (h : ':' ∉ f.data) : rewriteFileStep O acc f = acc := by
  unfold rewriteFileStep
  rw [getExtensionFromUrl_no_colon f h]
  rfl

/-- Folding a step that fixes every element of the list is the identity. -/
theorem foldl_fixed {α β : Type} (step : α → β → α) (l : List β)
    (h : ∀ x ∈ l, ∀ a, step a x = a) : ∀ init, l.foldl step init = init := by
  induction l with
  | nil => intro init; rfl
  | cons x xs ih =>
    intro init
    rw [List.foldl_cons, h x (List.mem_cons_self _ _) init]
    exact ih (fun y hy a => h y (List.mem_cons_of_mem _ hy) a) init

/-- The rewrite pass enumerates storage but, because every stored relative
path is classified `other`, reads back and rewrites nothing. -/
theorem rewritePassM_noop (O : EngOracle) (st : EngState)
    (h : ∀ f ∈ st.storage.files, ':' ∉ f.1.data) :
    rewritePassM O st = (st, [.rewritePassRun (st.storage.files.map (·.1))]) := by
  unfold rewritePassM
  have := foldl_fixed (rewriteFileStep O) (st.storage.files.map (·.1))
    (fun x hx a => by
      obtain ⟨e, he, rfl⟩ := List.mem_map.mp hx
      exact rewriteFileStep_skip O a e.1 (h e he)) (st.storage, [])
  simp only [this]

/-- An aborted engine performs no loop iteration. -/
theorem crawlLoopM_aborted (O : EngOracle) (fuel : Nat) (st : EngState)
    (h : st.aborted = true) : crawlLoopM O fuel st = (st, []) := by
  cases fuel with
  | zero => rfl
  | succ n =>
    unfold crawlLoopM
    rw [h]
    simp

/-- A frontier with no pending and no in-progress work stops the loop at
once. -/
theorem crawlLoopM_idle (O : EngOracle) (fuel : Nat) (st : EngState)
    (h : st.queue.hasPending = false) : crawlLoopM O fuel st = (st, []) := by
  cases fuel with
  | zero => rfl
  | succ n =>
    unfold crawlLoopM
    rw [h]
    simp

/-! ## Groundwork for claim C9: characters, takeWhile, splitOnChar -/

/-- `Char.toLower` fixes characters outside the uppercase range. -/
theorem toLower_fixed (c : Char) (h : ¬(c.toNat ≥ 65 ∧ c.toNat ≤ 90)) :
    c.toLower = c := by
  unfold Char.toLower
  dsimp only
  rw [if_neg h]

/-- Scheme characters are lowercase-fixed. -/
theorem isSchemeChar_toLower (c : Char) (h : isSchemeChar c = true) :
    c.toLower = c := by
  apply toLower_fixed
  unfold isSchemeChar isLower isDigitC at h
  simp only [Bool.or_eq_true, Bool.and_eq_true, decide_eq_true_eq, beq_iff_eq] at h
  rcases h with (((h | h) | h) | h) | h
  · omega
  · omega
  · subst h; decide
  · subst h; decide
  · subst h; decide

/-- Host characters are lowercase-fixed. -/
theorem isHostChar_toLower (c : Char) (h : isHostChar c = true) :
    c.toLower = c := by
  apply toLower_fixed
  unfold isHostChar isLower isDigitC at h
  simp only [Bool.or_eq_true, Bool.and_eq_true, decide_eq_true_eq, beq_iff_eq] at h
  rcases h with (((h | h) | h) | h) | h
  · omega
  · omega
  · subst h; decide
  · subst h; decide
  · subst h; decide

/-- Lowercasing fixes a list of lowercase-fixed characters. -/
theorem lowerList_fixed (l : List Char) (h : ∀ c ∈ l, c.toLower = c) :
    lowerList l = l := by
  unfold lowerList
  induction l with
  | nil => rfl
  | cons c cs ih =>
    rw [List.map_cons, h c (List.mem_cons_self _ _),
        ih (fun x hx => h x (List.mem_cons_of_mem _ hx))]

/-- `takeWhile`/`dropWhile` on a block of satisfying characters followed by
a stopper (or nothing). -/
theorem takeWhile_exact {p : Char → Bool} (l₁ z : List Char)
    (h : ∀ a ∈ l₁, p a = true)
    (hz : z = [] ∨ ∃ c zs, z = c :: zs ∧ p c = false) :
    (l₁ ++ z).takeWhile p = l₁ ∧ (l₁ ++ z).dropWhile p = z := by
  rcases hz with rfl | ⟨c, zs, rfl, hc⟩
  · constructor
    · rw [List.takeWhile_append_of_pos h, List.takeWhile_nil, List.append_nil]
    · rw [List.dropWhile_append_of_pos h, List.dropWhile_nil]
  · constructor
    · rw [List.takeWhile_append_of_pos h,
          List.takeWhile_cons_of_neg (by rw [hc]; exact Bool.false_ne_true),
          List.append_nil]
    · rw [List.dropWhile_append_of_pos h,
          List.dropWhile_cons_of_neg (by rw [hc]; exact Bool.false_ne_true)]

/-- Elements of `takeWhile` satisfy the predicate. -/
theorem mem_takeWhile {p : Char → Bool} (l : List Char) :
    ∀ a ∈ l.takeWhile p, p a = true := by
  induction l with
  | nil => intro a ha; cases ha
  | cons c cs ih =>
    intro a ha
    rw [List.takeWhile_cons] at ha
    by_cases hc : p c = true
    · rw [if_pos hc] at ha
      rcases List.mem_cons.mp ha with rfl | ha'
      · exact hc
      · exact ih a ha'
    · rw [if_neg hc] at ha
      cases ha

/-- `splitOnChar` never returns the empty list of components. -/
theorem splitOnChar_ne_nil (sep : Char) (l : List Char) :
    splitOnChar sep l ≠ [] := by
  cases l with
  | nil => exact fun h => List.noConfusion h
  | cons c cs =>
    unfold splitOnChar
    dsimp only
    split
    · exact fun h => List.noConfusion h
    · split
      · exact fun h => List.noConfusion h
      · exact fun h => List.noConfusion h

/-- Splitting a separator-free list. -/
theorem splitOnChar_sepFree (sep : Char) (l : List Char)
    (h : ∀ c ∈ l, c ≠ sep) : splitOnChar sep l = [l] := by
  induction l with
  | nil => rfl
  | cons c cs ih =>
    unfold splitOnChar
    dsimp only
    have hc : (c == sep) = false :=
      beq_eq_false_iff_ne.mpr (h c (List.mem_cons_self _ _))
    rw [hc]
    simp only [Bool.false_eq_true, if_false]
    rw [ih (fun x hx => h x (List.mem_cons_of_mem _ hx))]

/-- Splitting at the first separator. -/
theorem splitOnChar_append (sep : Char) (l₁ l₂ : List Char)
    (h : ∀ c ∈ l₁, c ≠ sep) :
    splitOnChar sep (l₁ ++ sep :: l₂) = l₁ :: splitOnChar sep l₂ := by
  induction l₁ with
  | nil =>
    show splitOnChar sep (sep :: l₂) = [] :: splitOnChar sep l₂
    conv_lhs => unfold splitOnChar
    simp
  | cons c cs ih =>
    show splitOnChar sep (c :: (cs ++ sep :: l₂)) = (c :: cs) :: splitOnChar sep l₂
    conv_lhs => unfold splitOnChar
    have hc : (c == sep) = false :=
      beq_eq_false_iff_ne.mpr (h c (List.mem_cons_self _ _))
    rw [ih (fun x hx => h x (List.mem_cons_of_mem _ hx)), hc]
    simp

/-- Splitting a list that ends in a separator appends an empty component. -/
theorem splitOnChar_concat_sep (sep : Char) (l : List Char) :
    splitOnChar sep (l ++ [sep]) = splitOnChar sep l ++ [[]] := by
  induction l with
  | nil =>
    show splitOnChar sep [sep] = splitOnChar sep [] ++ [[]]
    unfold splitOnChar
    dsimp only
    rw [BEq.refl]
    rfl
  | cons c cs ih =>
    show splitOnChar sep (c :: (cs ++ [sep])) = splitOnChar sep (c :: cs) ++ [[]]
    unfold splitOnChar
    dsimp only
    rw [ih]
    by_cases hc : (c == sep) = true
    · rw [hc]
      simp
    · rw [Bool.not_eq_true] at hc
      rw [hc]
      simp only [Bool.false_eq_true, if_false]
      cases hs : splitOnChar sep cs with
      | nil => exact absurd hs (splitOnChar_ne_nil sep cs)
      | cons r rs => simp

/-- Characters of a split component come from the list and are never the
separator. -/
theorem splitOnChar_chars (sep : Char) :
    ∀ (l x : List Char), x ∈ splitOnChar sep l → ∀ c ∈ x, c ∈ l ∧ c ≠ sep := by
  intro l
  induction l with
  | nil =>
    intro x hx c hc
    rcases List.mem_singleton.mp hx with rfl
    cases hc
  | cons a as ih =>
    intro x hx c hc
    unfold splitOnChar at hx
    dsimp only at hx
    by_cases ha : (a == sep) = true
    · rw [ha] at hx
      simp only [if_true] at hx
      rcases List.mem_cons.mp hx with rfl | hx'
      · cases hc
      · have := ih x hx' c hc
        exact ⟨List.mem_cons_of_mem _ this.1, this.2⟩
    · rw [Bool.not_eq_true] at ha
      rw [ha] at hx
      simp only [Bool.false_eq_true, if_false] at hx
      cases hs : splitOnChar sep as with
      | nil => exact absurd hs (splitOnChar_ne_nil sep as)
      | cons r rs =>
        rw [hs] at hx
        rcases List.mem_cons.mp hx with rfl | hx'
        · rcases List.mem_cons.mp hc with rfl | hc'
          · exact ⟨List.mem_cons_self _ _, beq_eq_false_iff_ne.mp ha⟩
          · have := ih r (hs ▸ List.mem_cons_self _ _) c hc'
            exact ⟨List.mem_cons_of_mem _ this.1, this.2⟩
        · have := ih x (hs ▸ List.mem_cons_of_mem _ hx') c hc
          exact ⟨List.mem_cons_of_mem _ this.1, this.2⟩

/-- `listEndsWith` is the suffix relation. -/
theorem listEndsWith_iff (l s : List Char) : listEndsWith l s = true ↔ s <:+ l := by
  unfold listEndsWith
  rw [decide_eq_true_iff]
  exact List.isSuffixOf_iff_suffix

/-- The head of a non-empty `dropWhile` fails the predicate. -/
theorem dropWhile_cons_head {p : Char → Bool} (l : List Char) (d : Char)
    (v : List Char) (h : l.dropWhile p = d :: v) : p d = false := by
  induction l with
  | nil => cases h
  | cons c cs ih =>
    rw [List.dropWhile_cons] at h
    by_cases hc : p c = true
    · rw [if_pos hc] at h
      exact ih h
    · rw [if_neg hc] at h
      injection h with h1 h2
      subst h1
      cases hpc : p c with
      | false => rfl
      | true => exact absurd hpc hc

/-- Stripping a path that ends in a slash drops exactly that slash. -/
theorem strip_concat (q : List Char) (hne : q ++ ['/'] ≠ ['/']) :
    stripTrailingSlash (q ++ ['/']) = q := by
  unfold stripTrailingSlash
  rw [if_pos, List.dropLast_concat]
  rw [Bool.and_eq_true]
  exact ⟨decide_eq_true hne, (listEndsWith_iff _ _).mpr ⟨q, rfl⟩⟩

/-- Stripping a path that does not end in a slash is the identity. -/
theorem strip_of_not_endsWith (p : List Char) (h : listEndsWith p ['/'] = false) :
    stripTrailingSlash p = p := by
  unfold stripTrailingSlash
  rw [if_neg]
  intro hc
  rw [Bool.and_eq_true] at hc
  rw [h] at hc
  exact Bool.false_ne_true hc.2

/-- The trailing-slash strip is idempotent away from double-slash tails. -/
theorem stripTrailingSlash_idem (p : List Char)
    (hds : doubleSlashTail p = false) :
    stripTrailingSlash (stripTrailingSlash p) = stripTrailingSlash p := by
  by_cases hp1 : p = ['/']
  · subst hp1
    decide
  · by_cases he : listEndsWith p ['/'] = true
    · obtain ⟨q, rfl⟩ := (listEndsWith_iff p ['/']).mp he
      rw [strip_concat q hp1]
      by_cases heq : listEndsWith q ['/'] = true
      · by_cases hq1 : q = ['/']
        · subst hq1
          decide
        · exfalso
          obtain ⟨r, rfl⟩ := (listEndsWith_iff q ['/']).mp heq
          have h2 : listEndsWith ((r ++ ['/']) ++ ['/']) ['/', '/'] = true :=
            (listEndsWith_iff _ _).mpr ⟨r, by simp⟩
          have h3 : ((r ++ ['/']) ++ ['/']) ≠ ['/', '/'] := by
            intro hcontra
            exact hq1 (List.append_cancel_right
              (hcontra.trans (by rfl : (['/', '/'] : List Char) = ['/'] ++ ['/'])))
          unfold doubleSlashTail at hds
          rw [h2, Bool.true_and] at hds
          rw [Bool.not_eq_false'] at hds
          exact h3 (beq_iff_eq.mp hds)
      · have hf : listEndsWith q ['/'] = false := by
          cases h' : listEndsWith q ['/'] with
          | false => rfl
          | true => exact absurd h' heq
        exact strip_of_not_endsWith q hf
    · have hf : listEndsWith p ['/'] = false := by
        cases h' : listEndsWith p ['/'] with
        | false => rfl
        | true => exact absurd h' he
      rw [strip_of_not_endsWith p hf, strip_of_not_endsWith p hf]

/-- The trailing-slash strip preserves path wellformedness. -/
theorem pathOk_strip (p : List Char) (h : pathOk p = true) :
    pathOk (stripTrailingSlash p) = true := by
  by_cases hp1 : p = ['/']
  · subst hp1
    decide
  · by_cases he : listEndsWith p ['/'] = true
    · obtain ⟨q, rfl⟩ := (listEndsWith_iff p ['/']).mp he
      rw [strip_concat q hp1]
      unfold pathOk at h ⊢
      rw [splitOnChar_concat_sep, List.all_append, List.all_append] at h
      simp only [Bool.and_eq_true] at h ⊢
      obtain ⟨⟨⟨hall, _⟩, hhead⟩, hsegs, _⟩ := h
      refine ⟨⟨hall, ?_⟩, hsegs⟩
      cases q with
      | nil => exact absurd rfl hp1
      | cons c q' =>
        rw [decide_eq_true_iff] at hhead ⊢
        rw [List.cons_append] at hhead
        rw [List.take_cons] at hhead ⊢
        · injection hhead with h1 h2
          subst h1
          rfl
        · exact Nat.zero_lt_one
        · exact Nat.zero_lt_one
    · have hf : listEndsWith p ['/'] = false := by
        cases h' : listEndsWith p ['/'] with
        | false => rfl
        | true => exact absurd h' he
      rw [strip_of_not_endsWith p hf]
      exact h

/-- Totality of the lexicographic comparison. -/
theorem listLe_total (a b : List Char) :
    listLe a b = true ∨ listLe b a = true := by
  induction a generalizing b with
  | nil => left; rfl
  | cons x xs ih =>
    cases b with
    | nil => right; rfl
    | cons y ys =>
      unfold listLe
      by_cases h1 : x.toNat < y.toNat
      · left
        rw [if_pos h1]
      · by_cases h2 : y.toNat < x.toNat
        · right
          rw [if_pos h2]
        · rw [if_neg h1, if_neg h2, if_neg (by exact h2 : ¬x.toNat > y.toNat),
              if_neg (by exact h1 : ¬y.toNat > x.toNat)]
          exact ih ys

/-- The tail of a sorted list is sorted. -/
theorem chainLe_tail (x : List Char × List Char)
    (xs : List (List Char × List Char)) (h : chainLe (x :: xs) = true) :
    chainLe xs = true := by
  cases xs with
  | nil => rfl
  | cons y ys =>
    unfold chainLe at h
    exact (Bool.and_eq_true _ _ ▸ h).2

/-- The head bound of a sorted list. -/
theorem chainLe_head (x y : List Char × List Char)
    (ys : List (List Char × List Char)) (h : chainLe (x :: y :: ys) = true) :
    pairLe x y = true := by
  unfold chainLe at h
  exact (Bool.and_eq_true _ _ ▸ h).1

/-- Members of an insertion are the new entry or old members. -/
theorem mem_insertEntry (a e : List Char × List Char)
    (xs : List (List Char × List Char)) (h : a ∈ insertEntry e xs) :
    a = e ∨ a ∈ xs := by
  induction xs with
  | nil => left; exact List.mem_singleton.mp h
  | cons x xs ih =>
    unfold insertEntry at h
    by_cases hle : listLe (entryKey e) (entryKey x) = true
    · rw [if_pos hle] at h
      rcases List.mem_cons.mp h with rfl | h'
      · left; rfl
      · right; exact h'
    · rw [if_neg hle] at h
      rcases List.mem_cons.mp h with rfl | h'
      · right; exact List.mem_cons_self _ _
      · rcases ih h' with rfl | h''
        · left; rfl
        · right; exact List.mem_cons_of_mem _ h''

/-- Members of the sorted list are members of the original. -/
theorem mem_sortEntries (a : List Char × List Char)
    (es : List (List Char × List Char)) (h : a ∈ sortEntries es) : a ∈ es := by
  induction es with
  | nil => exact h
  | cons e es ih =>
    unfold sortEntries at h
    rcases mem_insertEntry a e (sortEntries es) h with rfl | h'
    · exact List.mem_cons_self _ _
    · exact List.mem_cons_of_mem _ (ih h')

/-- Insertion preserves sortedness. -/
theorem chainLe_insert (e : List Char × List Char)
    (xs : List (List Char × List Char)) (h : chainLe xs = true) :
    chainLe (insertEntry e xs) = true := by
  induction xs with
  | nil => rfl
  | cons x xs ih =>
    unfold insertEntry
    by_cases hle : listLe (entryKey e) (entryKey x) = true
    · rw [if_pos hle]
      unfold chainLe
      rw [Bool.and_eq_true]
      exact ⟨hle, h⟩
    · rw [if_neg hle]
      have hxe : pairLe x e = true := by
        rcases listLe_total (entryKey e) (entryKey x) with h' | h'
        · exact absurd h' hle
        · exact h'
      have hins := ih (chainLe_tail x xs h)
      cases xs with
      | nil =>
        show chainLe [x, e] = true
        unfold chainLe
        rw [Bool.and_eq_true]
        exact ⟨hxe, rfl⟩
      | cons y ys =>
        unfold insertEntry at hins ⊢
        by_cases hey : listLe (entryKey e) (entryKey y) = true
        · rw [if_pos hey] at hins ⊢
          unfold chainLe
          rw [Bool.and_eq_true]
          exact ⟨hxe, hins⟩
        · rw [if_neg hey] at hins ⊢
          unfold chainLe
          rw [Bool.and_eq_true]
          exact ⟨chainLe_head x y ys h, hins⟩

/-- The sort produces a sorted list. -/
theorem chainLe_sort (es : List (List Char × List Char)) :
    chainLe (sortEntries es) = true := by
  induction es with
  | nil => rfl
  | cons e es ih => exact chainLe_insert e (sortEntries es) ih

/-- Sorting a sorted list is the identity. -/
theorem sortEntries_of_chain (es : List (List Char × List Char))
    (h : chainLe es = true) : sortEntries es = es := by
  induction es with
  | nil => rfl
  | cons e es ih =>
    unfold sortEntries
    rw [ih (chainLe_tail e es h)]
    cases es with
    | nil => rfl
    | cons y ys =>
      unfold insertEntry
      have hp := chainLe_head e y ys h
      unfold pairLe at hp
      rw [if_pos hp]

/-- The sort is idempotent. -/
theorem sortEntries_idem (es : List (List Char × List Char)) :
    sortEntries (sortEntries es) = sortEntries es :=
  sortEntries_of_chain _ (chainLe_sort es)

/-- Filtering for `=` in an `=`-free list gives nothing. -/
theorem filter_eq_nil_of_ne (l : List Char) (h : ∀ c ∈ l, c ≠ '=') :
    l.filter (· == '=') = [] :=
  List.filter_eq_nil_iff.mpr (fun a ha hb => h a ha (beq_iff_eq.mp hb))

/-- The components of a wellformed entry, pointwise. -/
theorem entryWF_facts (k v : List Char) (h : entryWF (k, v) = true) :
    (∀ c ∈ k, isQueryChar c = true ∧ c ≠ '&' ∧ c ≠ '=') ∧
    (∀ c ∈ v, isQueryChar c = true ∧ c ≠ '&' ∧ c ≠ '=') := by
  unfold entryWF at h
  rw [Bool.and_eq_true] at h
  constructor
  · intro c hc
    have hx := List.all_eq_true.mp h.1 c hc
    simp only [Bool.and_eq_true] at hx
    exact ⟨hx.1.1, bne_iff_ne.mp hx.1.2, bne_iff_ne.mp hx.2⟩
  · intro c hc
    have hx := List.all_eq_true.mp h.2 c hc
    simp only [Bool.and_eq_true] at hx
    exact ⟨hx.1.1, bne_iff_ne.mp hx.1.2, bne_iff_ne.mp hx.2⟩

/-- Splitting a serialised entry at its `=`. -/
theorem segToEntry_eq (k v : List Char) (hk : ∀ c ∈ k, (c != '=') = true) :
    segToEntry (k ++ '=' :: v) = (k, v) := by
  unfold segToEntry
  have h := takeWhile_exact k ('=' :: v) hk (Or.inr ⟨'=', v, rfl, by decide⟩)
  rw [h.1, h.2]

/-- Entries parsed from a wellformed query are wellformed. -/
theorem entryWF_parseQueryEntries (q : List Char) (hq : queryOk q = true) :
    ∀ e ∈ parseQueryEntries q, entryWF e = true := by
  intro e he
  unfold parseQueryEntries at he
  rw [List.mem_filterMap] at he
  obtain ⟨seg, hseg, hmap⟩ := he
  by_cases hne : seg = []
  · rw [if_pos hne] at hmap
    cases hmap
  · rw [if_neg hne] at hmap
    injection hmap with hmap
    subst hmap
    unfold queryOk at hq
    rw [Bool.and_eq_true] at hq
    have hchars : ∀ c ∈ seg, isQueryChar c = true ∧ c ≠ '&' := by
      intro c hc
      have hcl := splitOnChar_chars '&' q seg hseg c hc
      exact ⟨List.all_eq_true.mp hq.1 c hcl.1, hcl.2⟩
    have hcount : (seg.filter (· == '=')).length ≤ 1 := by
      have hx := List.all_eq_true.mp hq.2 seg hseg
      exact of_decide_eq_true hx
    unfold segToEntry entryWF
    rw [Bool.and_eq_true]
    constructor
    · rw [List.all_eq_true]
      intro c hc
      have hcin : c ∈ seg := List.takeWhile_subset _ hc
      have hcp := mem_takeWhile seg c hc
      obtain ⟨hqc, hamp⟩ := hchars c hcin
      simp only [Bool.and_eq_true]
      exact ⟨⟨hqc, bne_iff_ne.mpr hamp⟩, hcp⟩
    · cases hdrop : seg.dropWhile (· != '=') with
      | nil => rfl
      | cons d v =>
        dsimp only
        have hd : (d != '=') = false := dropWhile_cons_head seg d v hdrop
        have hdeq : d = '=' := by
          rw [bne] at hd
          rw [Bool.not_eq_false'] at hd
          exact beq_iff_eq.mp hd
        have hsegeq : seg.takeWhile (· != '=') ++ d :: v = seg := by
          rw [← hdrop]
          exact List.takeWhile_append_dropWhile _ _
        have hfv : v.filter (· == '=') = [] := by
          have hlen := hcount
          rw [← hsegeq, List.filter_append] at hlen
          rw [filter_eq_nil_of_ne _
            (fun a ha => bne_iff_ne.mp (mem_takeWhile seg a ha))] at hlen
          subst hdeq
          rw [List.filter_cons_of_pos (by decide)] at hlen
          simp only [List.nil_append, List.length_cons] at hlen
          have : (v.filter (· == '=')).length = 0 := by omega
          exact List.length_eq_zero.mp this
        rw [List.all_eq_true]
        intro c hc
        have hcin : c ∈ seg := by
          rw [← hsegeq]
          exact List.mem_append_right _ (List.mem_cons_of_mem _ hc)
        obtain ⟨hqc, hamp⟩ := hchars c hcin
        have hcne : c ≠ '=' := by
          intro hcontra
          have hmemf : c ∈ v.filter (· == '=') :=
            List.mem_filter.mpr ⟨hc, beq_iff_eq.mpr hcontra⟩
          rw [hfv] at hmemf
          cases hmemf
        simp only [Bool.and_eq_true]
        exact ⟨⟨hqc, bne_iff_ne.mpr hamp⟩, bne_iff_ne.mpr hcne⟩

/-- Serialising wellformed entries and re-parsing them is the identity. -/
theorem parse_serializeEntries (es : List (List Char × List Char))
    (h : ∀ e ∈ es, entryWF e = true) :
    parseQueryEntries (serializeEntries es) = es := by
  induction es with
  | nil => rfl
  | cons e rest ih =>
    obtain ⟨k, v⟩ := e
    obtain ⟨hk, hv⟩ := entryWF_facts k v (h _ (List.mem_cons_self _ _))
    have hfree : ∀ c ∈ k ++ '=' :: v, c ≠ '&' := by
      intro c hc
      rcases List.mem_append.mp hc with hc' | hc'
      · exact (hk c hc').2.1
      · rcases List.mem_cons.mp hc' with rfl | hc''
        · decide
        · exact (hv c hc'').2.1
    have hkne : ∀ c ∈ k, (c != '=') = true :=
      fun c hc => bne_iff_ne.mpr (hk c hc).2.2
    cases rest with
    | nil =>
      show parseQueryEntries (k ++ '=' :: v) = [(k, v)]
      unfold parseQueryEntries
      rw [splitOnChar_sepFree '&' _ hfree]
      rw [List.filterMap_cons, List.filterMap_nil]
      rw [if_neg (by simp)]
      rw [segToEntry_eq k v hkne]
    | cons e2 rest2 =>
      have hser : serializeEntries ((k, v) :: e2 :: rest2) =
          (k ++ '=' :: v) ++ '&' :: serializeEntries (e2 :: rest2) := by
        simp only [serializeEntries]
      unfold parseQueryEntries
      rw [hser, splitOnChar_append '&' _ _ hfree]
      rw [List.filterMap_cons]
      rw [if_neg (by simp)]
      rw [segToEntry_eq k v hkne]
      have ihx := ih (fun e' he' => h e' (List.mem_cons_of_mem _ he'))
      unfold parseQueryEntries at ihx
      rw [ihx]

/-- The serialisation of wellformed entries uses only query characters. -/
theorem serializeEntries_charset (es : List (List Char × List Char))
    (h : ∀ e ∈ es, entryWF e = true) :
    (serializeEntries es).all isQueryChar = true := by
  induction es with
  | nil => rfl
  | cons e rest ih =>
    obtain ⟨k, v⟩ := e
    obtain ⟨hk, hv⟩ := entryWF_facts k v (h _ (List.mem_cons_self _ _))
    have hkv : ∀ c ∈ k ++ '=' :: v, isQueryChar c = true := by
      intro c hc
      rcases List.mem_append.mp hc with hc' | hc'
      · exact (hk c hc').1
      · rcases List.mem_cons.mp hc' with rfl | hc''
        · decide
        · exact (hv c hc'').1
    cases rest with
    | nil =>
      show (k ++ '=' :: v).all isQueryChar = true
      exact List.all_eq_true.mpr hkv
    | cons e2 rest2 =>
      have hser : serializeEntries ((k, v) :: e2 :: rest2) =
          (k ++ '=' :: v) ++ '&' :: serializeEntries (e2 :: rest2) := by
        simp only [serializeEntries]
      rw [hser, List.all_eq_true]
      intro c hc
      rcases List.mem_append.mp hc with hc' | hc'
      · exact hkv c hc'
      · rcases List.mem_cons.mp hc' with rfl | hc''
        · decide
        · exact List.all_eq_true.mp
            (ih (fun e' he' => h e' (List.mem_cons_of_mem _ he'))) c hc''

/-- Each `&`-segment of the serialisation carries exactly one `=`. -/
theorem serializeEntries_segments (es : List (List Char × List Char))
    (h : ∀ e ∈ es, entryWF e = true) :
    (splitOnChar '&' (serializeEntries es)).all
      (fun seg => decide ((seg.filter (· == '=')).length ≤ 1)) = true := by
  induction es with
  | nil => rfl
  | cons e rest ih =>
    obtain ⟨k, v⟩ := e
    obtain ⟨hk, hv⟩ := entryWF_facts k v (h _ (List.mem_cons_self _ _))
    have hfree : ∀ c ∈ k ++ '=' :: v, c ≠ '&' := by
      intro c hc
      rcases List.mem_append.mp hc with hc' | hc'
      · exact (hk c hc').2.1
      · rcases List.mem_cons.mp hc' with rfl | hc''
        · decide
        · exact (hv c hc'').2.1
    have hseg : ((k ++ '=' :: v).filter (· == '=')).length ≤ 1 := by
      rw [List.filter_append, filter_eq_nil_of_ne k (fun c hc => (hk c hc).2.2),
          List.filter_cons_of_pos (by decide),
          filter_eq_nil_of_ne v (fun c hc => (hv c hc).2.2)]
      decide
    cases rest with
    | nil =>
      show (splitOnChar '&' (k ++ '=' :: v)).all _ = true
      rw [splitOnChar_sepFree '&' _ hfree]
      rw [List.all_cons, List.all_nil, Bool.and_true]
      exact decide_eq_true hseg
    | cons e2 rest2 =>
      have hser : serializeEntries ((k, v) :: e2 :: rest2) =
          (k ++ '=' :: v) ++ '&' :: serializeEntries (e2 :: rest2) := by
        simp only [serializeEntries]
      rw [hser, splitOnChar_append '&' _ _ hfree]
      rw [List.all_cons]
      rw [Bool.and_eq_true]
      exact ⟨decide_eq_true hseg,
        ih (fun e' he' => h e' (List.mem_cons_of_mem _ he'))⟩

/-- The serialisation of wellformed entries is a wellformed query. -/
theorem queryOk_serializeEntries (es : List (List Char × List Char))
    (h : ∀ e ∈ es, entryWF e = true) :
    queryOk (serializeEntries es) = true := by
  unfold queryOk
  rw [Bool.and_eq_true]
  exact ⟨serializeEntries_charset es h, serializeEntries_segments es h⟩

/-- The query-sorting step keeps the scheme. -/
theorem sortQueryStep_scheme (v : UrlC) : (sortQueryStep v).scheme = v.scheme := by
  obtain ⟨sc, ho, po, pa, qu, fr⟩ := v
  unfold sortQueryStep
  cases qu with
  | none => rfl
  | some q =>
    dsimp only
    by_cases h1 : q = []
    · rw [if_pos h1]
    · rw [if_neg h1]
      by_cases h2 : serializeEntries (sortEntries (parseQueryEntries q)) = []
      · rw [if_pos h2]
      · rw [if_neg h2]

/-- The query-sorting step keeps the host. -/
theorem sortQueryStep_host (v : UrlC) : (sortQueryStep v).host = v.host := by
  obtain ⟨sc, ho, po, pa, qu, fr⟩ := v
  unfold sortQueryStep
  cases qu with
  | none => rfl
  | some q =>
    dsimp only
    by_cases h1 : q = []
    · rw [if_pos h1]
    · rw [if_neg h1]
      by_cases h2 : serializeEntries (sortEntries (parseQueryEntries q)) = []
      · rw [if_pos h2]
      · rw [if_neg h2]

/-- The query-sorting step keeps the port. -/
theorem sortQueryStep_port (v : UrlC) : (sortQueryStep v).port = v.port := by
  obtain ⟨sc, ho, po, pa, qu, fr⟩ := v
  unfold sortQueryStep
  cases qu with
  | none => rfl
  | some q =>
    dsimp only
    by_cases h1 : q = []
    · rw [if_pos h1]
    · rw [if_neg h1]
      by_cases h2 : serializeEntries (sortEntries (parseQueryEntries q)) = []
      · rw [if_pos h2]
      · rw [if_neg h2]

/-- The query-sorting step keeps the path. -/
theorem sortQueryStep_path (v : UrlC) : (sortQueryStep v).path = v.path := by
  obtain ⟨sc, ho, po, pa, qu, fr⟩ := v
  unfold sortQueryStep
  cases qu with
  | none => rfl
  | some q =>
    dsimp only
    by_cases h1 : q = []
    · rw [if_pos h1]
    · rw [if_neg h1]
      by_cases h2 : serializeEntries (sortEntries (parseQueryEntries q)) = []
      · rw [if_pos h2]
      · rw [if_neg h2]

/-- The query-sorting step commutes with setting the fragment. -/
theorem sortQueryStep_setFrag (w : UrlC) (f : Option (List Char)) :
    sortQueryStep { w with frag := f } = { sortQueryStep w with frag := f } := by
  obtain ⟨sc, ho, po, pa, qu, fr⟩ := w
  unfold sortQueryStep
  cases qu with
  | none => rfl
  | some q =>
    dsimp only
    by_cases h1 : q = []
    · rw [if_pos h1, if_pos h1]
    · rw [if_neg h1, if_neg h1]
      by_cases h2 : serializeEntries (sortEntries (parseQueryEntries q)) = []
      · rw [if_pos h2, if_pos h2]
      · rw [if_neg h2, if_neg h2]

/-- The query-sorting step is idempotent on wellformed queries. -/
theorem sortQueryStep_idem (v : UrlC) (h : queryWF v.query = true) :
    sortQueryStep (sortQueryStep v) = sortQueryStep v := by
  obtain ⟨sc, ho, po, pa, qu, fr⟩ := v
  cases qu with
  | none => rfl
  | some q =>
    by_cases h1 : q = []
    · subst h1
      rfl
    · have hq : queryOk q = true := h
      by_cases h2 : serializeEntries (sortEntries (parseQueryEntries q)) = []
      · have hinner : sortQueryStep ⟨sc, ho, po, pa, some q, fr⟩ =
            ⟨sc, ho, po, pa, none, fr⟩ := by
          unfold sortQueryStep
          dsimp only
          rw [if_neg h1, if_pos h2]
        rw [hinner]
        rfl
      · have hinner : sortQueryStep ⟨sc, ho, po, pa, some q, fr⟩ =
            ⟨sc, ho, po, pa,
             some (serializeEntries (sortEntries (parseQueryEntries q))), fr⟩ := by
          unfold sortQueryStep
          dsimp only
          rw [if_neg h1, if_neg h2]
        rw [hinner]
        have hps : parseQueryEntries
            (serializeEntries (sortEntries (parseQueryEntries q))) =
            sortEntries (parseQueryEntries q) :=
          parse_serializeEntries _
            (fun e he => entryWF_parseQueryEntries q hq e (mem_sortEntries e _ he))
        unfold sortQueryStep
        dsimp only
        rw [if_neg h2, hps, sortEntries_idem, if_neg h2]

/-- The query-sorting step preserves query wellformedness. -/
theorem queryWF_sortQueryStep (v : UrlC) (h : queryWF v.query = true) :
    queryWF (sortQueryStep v).query = true := by
  obtain ⟨sc, ho, po, pa, qu, fr⟩ := v
  cases qu with
  | none => exact h
  | some q =>
    by_cases h1 : q = []
    · subst h1
      exact h
    · have hq : queryOk q = true := h
      unfold sortQueryStep
      dsimp only
      rw [if_neg h1]
      by_cases h2 : serializeEntries (sortEntries (parseQueryEntries q)) = []
      · rw [if_pos h2]
        rfl
      · rw [if_neg h2]
        exact queryOk_serializeEntries _
          (fun e he => entryWF_parseQueryEntries q hq e (mem_sortEntries e _ he))

/-- Lowercasing fixes a wellformed scheme. -/
theorem schemeWF_lower (s : List Char) (h : schemeWF s = true) :
    lowerList s = s := by
  unfold schemeWF at h
  simp only [Bool.and_eq_true] at h
  exact lowerList_fixed s
    (fun c hc => isSchemeChar_toLower c (List.all_eq_true.mp h.1.2 c hc))

/-- Lowercasing fixes a wellformed host. -/
theorem hostOk_lower (h : List Char) (hh : hostOk h = true) :
    lowerList h = h := by
  unfold hostOk at hh
  simp only [Bool.and_eq_true] at hh
  exact lowerList_fixed h
    (fun c hc => isHostChar_toLower c (List.all_eq_true.mp hh.1.1.1 c hc))

/-- Replacing the path by its own value is the identity. -/
theorem UrlC_set_path_self (w : UrlC) (p : List Char) (hp : w.path = p) :
    { w with path := p } = w := by
  subst hp
  rfl

/-- On wellformed records, `normParts` is the strip/sort/defrag composite
(the lowercasing and port-drop steps are the identity). -/
theorem normParts_of_wf (u : UrlC) (h : UrlWF u = true) :
    normParts u =
      { sortQueryStep { u with path := stripTrailingSlash u.path }
        with frag := none } := by
  obtain ⟨sc, ho, po, pa, qu, fr⟩ := u
  simp only [UrlWF, Bool.and_eq_true] at h
  obtain ⟨⟨⟨⟨hsc, hho⟩, hpo⟩, hpa⟩, hqu⟩ := h
  unfold normParts
  dsimp only
  rw [schemeWF_lower sc hsc, hostOk_lower ho hho]
  split
  · next hcond =>
    exfalso
    rw [Bool.or_eq_true, Bool.and_eq_true, Bool.and_eq_true] at hcond
    rcases hcond with ⟨hs, hp⟩ | ⟨hs, hp⟩
    · rw [decide_eq_true_iff] at hs hp
      rw [hs, hp] at hpo
      exact absurd hpo (by decide)
    · rw [decide_eq_true_iff] at hs hp
      rw [hs, hp] at hpo
      exact absurd hpo (by decide)
  · rfl

/-- `normParts` preserves wellformedness. -/
theorem UrlWF_normParts (u : UrlC) (h : UrlWF u = true) :
    UrlWF (normParts u) = true := by
  rw [normParts_of_wf u h]
  simp only [UrlWF, Bool.and_eq_true] at h ⊢
  obtain ⟨⟨⟨⟨hsc, hho⟩, hpo⟩, hpa⟩, hqu⟩ := h
  refine ⟨⟨⟨⟨?_, ?_⟩, ?_⟩, ?_⟩, ?_⟩
  · rw [sortQueryStep_scheme]
    exact hsc
  · rw [sortQueryStep_host]
    exact hho
  · rw [sortQueryStep_scheme, sortQueryStep_port]
    exact hpo
  · rw [sortQueryStep_path]
    exact pathOk_strip u.path hpa
  · exact queryWF_sortQueryStep _ hqu

/-- `normParts` is idempotent on wellformed records whose path does not end
in a double slash. -/
theorem normParts_idem (u : UrlC) (h : UrlWF u = true)
    (hds : doubleSlashTail u.path = false) :
    normParts (normParts u) = normParts u := by
  have h2 := UrlWF_normParts u h
  rw [normParts_of_wf _ h2, normParts_of_wf _ h]
  have hqu : queryWF ({ u with path := stripTrailingSlash u.path } : UrlC).query
      = true := by
    have := h
    simp only [UrlWF, Bool.and_eq_true] at this
    exact this.2
  have hNpath : ({ sortQueryStep { u with path := stripTrailingSlash u.path }
      with frag := none } : UrlC).path = stripTrailingSlash u.path := by
    show (sortQueryStep { u with path := stripTrailingSlash u.path }).path = _
    rw [sortQueryStep_path]
  rw [hNpath, stripTrailingSlash_idem u.path hds,
      UrlC_set_path_self _ _ hNpath, sortQueryStep_setFrag,
      sortQueryStep_idem _ hqu]

/-- A wellformed path starts with a slash. -/
theorem pathOk_shape (p : List Char) (h : pathOk p = true) :
    ∃ pr, p = '/' :: pr := by
  unfold pathOk at h
  simp only [Bool.and_eq_true] at h
  obtain ⟨⟨_, hhead⟩, _⟩ := h
  rw [decide_eq_true_iff] at hhead
  cases p with
  | nil => exact absurd hhead (by decide)
  | cons c pr =>
    have h1 : c :: List.take 0 pr = ['/'] := hhead
    injection h1 with hc _
    exact ⟨pr, by rw [hc]⟩

/-- Unpacking a wellformed concrete port. -/
theorem portWF_facts (sc ds : List Char) (h : portWF sc (some ds) = true) :
    portDigitsOk ds = true ∧ ¬(some (digitsToNat ds) = defaultPort sc) := by
  unfold portWF at h
  rw [Bool.and_eq_true] at h
  refine ⟨h.1, ?_⟩
  have hx := h.2
  rw [Bool.not_eq_true'] at hx
  exact of_decide_eq_false hx

/-- Fragment-stage characterisation. -/
theorem parseAfterQuery_spec (sc ho : List Char) (po : Option (List Char))
    (pa : List Char) (qu : Option (List Char)) (r : List Char) (u : UrlC)
    (h : parseAfterQuery sc ho po pa qu r = some u) :
    u.scheme = sc ∧ u.host = ho ∧ u.port = po ∧ u.path = pa ∧ u.query = qu := by
  unfold parseAfterQuery at h
  split at h
  · injection h with h
    subst h
    exact ⟨rfl, rfl, rfl, rfl, rfl⟩
  · injection h with h
    subst h
    exact ⟨rfl, rfl, rfl, rfl, rfl⟩
  · cases h

/-- Query-stage characterisation. -/
theorem parseAfterPath_spec (sc ho : List Char) (po : Option (List Char))
    (pa : List Char) (r : List Char) (u : UrlC)
    (h : parseAfterPath sc ho po pa r = some u) :
    u.scheme = sc ∧ u.host = ho ∧ u.port = po ∧ u.path = pa ∧
      queryWF u.query = true := by
  unfold parseAfterPath at h
  split at h
  · dsimp only at h
    split at h
    · next hq =>
      obtain ⟨h1, h2, h3, h4, h5⟩ := parseAfterQuery_spec _ _ _ _ _ _ _ h
      exact ⟨h1, h2, h3, h4, by rw [h5]; exact hq⟩
    · cases h
  · obtain ⟨h1, h2, h3, h4, h5⟩ := parseAfterQuery_spec _ _ _ _ _ _ _ h
    exact ⟨h1, h2, h3, h4, by rw [h5]; rfl⟩

/-- Path-stage characterisation. -/
theorem parseAfterPort_spec (sc ho : List Char) (po : Option (List Char))
    (r : List Char) (u : UrlC)
    (hpo : po = none ∨ ∃ ds, po = some ds ∧ portDigitsOk ds = true)
    (h : parseAfterPort sc ho po r = some u) :
    u.scheme = sc ∧ u.host = ho ∧ portWF sc u.port = true ∧
      pathOk u.path = true ∧ queryWF u.query = true := by
  unfold parseAfterPort at h
  dsimp only at h
  have hport : portWF sc
      (if po.map digitsToNat = defaultPort sc then none else po) = true := by
    split
    · rfl
    · next hcond =>
      rcases hpo with rfl | ⟨ds, rfl, hds⟩
      · rfl
      · show portWF sc (some ds) = true
        unfold portWF
        rw [Bool.and_eq_true]
        refine ⟨hds, ?_⟩
        have hcond' : ¬(some (digitsToNat ds) = defaultPort sc) := hcond
        rw [decide_eq_false hcond']
        rfl
  split at h
  · split at h
    · next hpath =>
      obtain ⟨h1, h2, h3, h4, h5⟩ := parseAfterPath_spec _ _ _ _ _ _ h
      exact ⟨h1, h2, by rw [h3]; exact hport, by rw [h4]; exact hpath, h5⟩
    · cases h
  · split at h
    · obtain ⟨h1, h2, h3, h4, h5⟩ := parseAfterPath_spec _ _ _ _ _ _ h
      exact ⟨h1, h2, by rw [h3]; exact hport, by rw [h4]; decide, h5⟩
    · cases h

/-- Port-stage characterisation. -/
theorem parseAfterHost_spec (sc ho : List Char) (r : List Char) (u : UrlC)
    (h : parseAfterHost sc ho r = some u) :
    u.scheme = sc ∧ u.host = ho ∧ portWF sc u.port = true ∧
      pathOk u.path = true ∧ queryWF u.query = true := by
  unfold parseAfterHost at h
  split at h
  · dsimp only at h
    split at h
    · exact parseAfterPort_spec _ _ _ _ _ (Or.inl rfl) h
    · split at h
      · next hdig =>
        exact parseAfterPort_spec _ _ _ _ _ (Or.inr ⟨_, rfl, hdig⟩) h
      · cases h
  · exact parseAfterPort_spec _ _ _ _ _ (Or.inl rfl) h

/-- Authority-stage characterisation. -/
theorem parseAuthority_spec (sc : List Char) (r : List Char) (u : UrlC)
    (h : parseAuthority sc r = some u) :
    u.scheme = sc ∧ hostOk u.host = true ∧ portWF sc u.port = true ∧
      pathOk u.path = true ∧ queryWF u.query = true := by
  unfold parseAuthority at h
  dsimp only at h
  split at h
  · cases h
  · next hcond =>
    obtain ⟨h1, h2, h3, h4, h5⟩ := parseAfterHost_spec _ _ _ _ h
    refine ⟨h1, ?_, h3, h4, h5⟩
    rw [h2]
    cases hh : hostOk (r.takeWhile isHostChar) with
    | false =>
      exfalso
      apply hcond
      rw [hh]
      rfl
    | true => rfl

/-- The parser only produces wellformed records. -/
theorem parseUrlCore_wf (cs : List Char) (u : UrlC)
    (h : parseUrlCore cs = some u) : UrlWF u = true := by
  unfold parseUrlCore at h
  dsimp only at h
  split at h
  · cases h
  · next hn1 =>
    split at h
    · cases h
    · next hn2 =>
      split at h
      · obtain ⟨h1, h2, h3, h4, h5⟩ := parseAuthority_spec _ _ _ h
        unfold UrlWF
        rw [h1]
        simp only [Bool.and_eq_true]
        refine ⟨⟨⟨⟨?_, h2⟩, h3⟩, h4⟩, h5⟩
        unfold schemeWF
        simp only [Bool.and_eq_true]
        refine ⟨⟨decide_eq_true hn1, ?_⟩, ?_⟩
        · exact List.all_eq_true.mpr (mem_takeWhile cs)
        · cases hl : (List.takeWhile isSchemeChar cs).take 1 |>.all isLower with
          | false =>
            exfalso
            apply hn2
            rw [hl]
            rfl
          | true => rfl
      · cases h

/-- Round trip, fragment stage. -/
theorem parseAfterQuery_ser (sc ho : List Char) (po : Option (List Char))
    (pa : List Char) (qu fr : Option (List Char)) :
    parseAfterQuery sc ho po pa qu (serializeFrag fr) =
      some ⟨sc, ho, po, pa, qu, fr⟩ := by
  cases fr with
  | none => rfl
  | some f => rfl

/-- Round trip, query stage. -/
theorem parseAfterPath_ser (sc ho : List Char) (po : Option (List Char))
    (pa : List Char) (qu fr : Option (List Char)) (hqu : queryWF qu = true) :
    parseAfterPath sc ho po pa (serializeQuery qu ++ serializeFrag fr) =
      some ⟨sc, ho, po, pa, qu, fr⟩ := by
  cases qu with
  | none =>
    rw [show serializeQuery none ++ serializeFrag fr = serializeFrag fr from
      List.nil_append _]
    cases fr with
    | none => rfl
    | some f => rfl
  | some q =>
    have hq : queryOk q = true := hqu
    have hqchars : ∀ c ∈ q, (c != '#') = true := by
      intro c hc
      have hcq : isQueryChar c = true := by
        unfold queryOk at hq
        rw [Bool.and_eq_true] at hq
        exact List.all_eq_true.mp hq.1 c hc
      refine bne_iff_ne.mpr (fun he => ?_)
      subst he
      exact absurd hcq (by decide)
    have hz : serializeFrag fr = [] ∨
        ∃ c zs, serializeFrag fr = c :: zs ∧ (c != '#') = false := by
      cases fr with
      | none => exact Or.inl rfl
      | some f => exact Or.inr ⟨'#', f, rfl, by decide⟩
    have htw := takeWhile_exact q (serializeFrag fr) hqchars hz
    show (if queryOk ((q ++ serializeFrag fr).takeWhile (· != '#'))
          then parseAfterQuery sc ho po pa
            (some ((q ++ serializeFrag fr).takeWhile (· != '#')))
            ((q ++ serializeFrag fr).dropWhile (· != '#'))
          else none) = some ⟨sc, ho, po, pa, some q, fr⟩
    rw [htw.1, htw.2, if_pos hq]
    exact parseAfterQuery_ser sc ho po pa (some q) fr

/-- Round trip, path stage. -/
theorem parseAfterPort_ser (sc ho : List Char) (po : Option (List Char))
    (pa : List Char) (qu fr : Option (List Char))
    (hpo : portWF sc po = true) (hpa : pathOk pa = true)
    (hqu : queryWF qu = true) :
    parseAfterPort sc ho po
      (pa ++ (serializeQuery qu ++ serializeFrag fr)) =
      some ⟨sc, ho, po, pa, qu, fr⟩ := by
  obtain ⟨pr, rfl⟩ := pathOk_shape pa hpa
  have hport : (if po.map digitsToNat = defaultPort sc then none else po)
      = po := by
    cases po with
    | none =>
      split
      · rfl
      · rfl
    | some ds =>
      exact if_neg (portWF_facts sc ds hpo).2
  have hpchars : ∀ c ∈ '/' :: pr, isPathChar c = true := by
    unfold pathOk at hpa
    simp only [Bool.and_eq_true] at hpa
    exact List.all_eq_true.mp hpa.1.1
  have hz : serializeQuery qu ++ serializeFrag fr = [] ∨
      ∃ c zs, serializeQuery qu ++ serializeFrag fr = c :: zs ∧
        isPathChar c = false := by
    cases qu with
    | some q => exact Or.inr ⟨'?', _, rfl, by decide⟩
    | none =>
      cases fr with
      | none => exact Or.inl rfl
      | some f => exact Or.inr ⟨'#', f, rfl, by decide⟩
  have htw := takeWhile_exact ('/' :: pr)
    (serializeQuery qu ++ serializeFrag fr) hpchars hz
  show (if pathOk ((('/' :: pr) ++ (serializeQuery qu ++ serializeFrag fr)).takeWhile
            isPathChar)
        then parseAfterPath sc ho
          (if po.map digitsToNat = defaultPort sc then none else po)
          ((('/' :: pr) ++ (serializeQuery qu ++ serializeFrag fr)).takeWhile
            isPathChar)
          ((('/' :: pr) ++ (serializeQuery qu ++ serializeFrag fr)).dropWhile
            isPathChar)
        else none) = some ⟨sc, ho, po, '/' :: pr, qu, fr⟩
  rw [htw.1, htw.2, if_pos hpa, hport]
  exact parseAfterPath_ser sc ho po ('/' :: pr) qu fr hqu

/-- Round trip, port stage. -/
theorem parseAfterHost_ser (sc ho : List Char) (po : Option (List Char))
    (pa : List Char) (qu fr : Option (List Char))
    (hpo : portWF sc po = true) (hpa : pathOk pa = true)
    (hqu : queryWF qu = true) :
    parseAfterHost sc ho
      (serializePort po ++ (pa ++ (serializeQuery qu ++ serializeFrag fr))) =
      some ⟨sc, ho, po, pa, qu, fr⟩ := by
  obtain ⟨pr, rfl⟩ := pathOk_shape pa hpa
  cases po with
  | none =>
    exact parseAfterPort_ser sc ho none ('/' :: pr) qu fr hpo hpa hqu
  | some ds =>
    obtain ⟨hdsok, _⟩ := portWF_facts sc ds hpo
    have hdsne : ds ≠ [] := by
      unfold portDigitsOk at hdsok
      simp only [Bool.and_eq_true] at hdsok
      exact of_decide_eq_true hdsok.1.1.2
    have hdchars : ∀ c ∈ ds, isDigitC c = true := by
      unfold portDigitsOk at hdsok
      simp only [Bool.and_eq_true] at hdsok
      exact List.all_eq_true.mp hdsok.1.1.1
    have hz : ('/' :: pr) ++ (serializeQuery qu ++ serializeFrag fr) = [] ∨
        ∃ c zs, ('/' :: pr) ++ (serializeQuery qu ++ serializeFrag fr) =
          c :: zs ∧ isDigitC c = false :=
      Or.inr ⟨'/', pr ++ (serializeQuery qu ++ serializeFrag fr),
        List.cons_append _ _ _, by decide⟩
    have htw := takeWhile_exact ds
      (('/' :: pr) ++ (serializeQuery qu ++ serializeFrag fr)) hdchars hz
    show (if (ds ++ (('/' :: pr) ++ (serializeQuery qu ++ serializeFrag fr))).takeWhile
              isDigitC = []
          then parseAfterPort sc ho none
            ((ds ++ (('/' :: pr) ++ (serializeQuery qu ++ serializeFrag fr))).dropWhile
              isDigitC)
          else if portDigitsOk
            ((ds ++ (('/' :: pr) ++ (serializeQuery qu ++ serializeFrag fr))).takeWhile
              isDigitC)
          then parseAfterPort sc ho
            (some ((ds ++ (('/' :: pr) ++ (serializeQuery qu ++ serializeFrag fr))).takeWhile
              isDigitC))
            ((ds ++ (('/' :: pr) ++ (serializeQuery qu ++ serializeFrag fr))).dropWhile
              isDigitC)
          else none) = some ⟨sc, ho, some ds, '/' :: pr, qu, fr⟩
    rw [htw.1, htw.2, if_neg hdsne, if_pos hdsok]
    exact parseAfterPort_ser sc ho (some ds) ('/' :: pr) qu fr hpo hpa hqu

/-- Round trip, authority stage. -/
theorem parseAuthority_ser (sc ho : List Char) (po : Option (List Char))
    (pa : List Char) (qu fr : Option (List Char))
    (hho : hostOk ho = true)
    (hpo : portWF sc po = true) (hpa : pathOk pa = true)
    (hqu : queryWF qu = true) :
    parseAuthority sc
      (ho ++ (serializePort po ++ (pa ++ (serializeQuery qu ++ serializeFrag fr)))) =
      some ⟨sc, ho, po, pa, qu, fr⟩ := by
  obtain ⟨pr, rfl⟩ := pathOk_shape pa hpa
  have hhchars : ∀ c ∈ ho, isHostChar c = true := by
    unfold hostOk at hho
    simp only [Bool.and_eq_true] at hho
    exact List.all_eq_true.mp hho.1.1.1
  have hz : serializePort po ++ (('/' :: pr) ++
        (serializeQuery qu ++ serializeFrag fr)) = [] ∨
      ∃ c zs, serializePort po ++ (('/' :: pr) ++
        (serializeQuery qu ++ serializeFrag fr)) = c :: zs ∧
        isHostChar c = false := by
    cases po with
    | some ds => exact Or.inr ⟨':', _, rfl, by decide⟩
    | none =>
      exact Or.inr ⟨'/', pr ++ (serializeQuery qu ++ serializeFrag fr),
        rfl, by decide⟩
  have htw := takeWhile_exact ho
    (serializePort po ++ (('/' :: pr) ++
      (serializeQuery qu ++ serializeFrag fr))) hhchars hz
  show (if !hostOk ((ho ++ (serializePort po ++ (('/' :: pr) ++
            (serializeQuery qu ++ serializeFrag fr)))).takeWhile isHostChar)
        then none
        else parseAfterHost sc
          ((ho ++ (serializePort po ++ (('/' :: pr) ++
            (serializeQuery qu ++ serializeFrag fr)))).takeWhile isHostChar)
          ((ho ++ (serializePort po ++ (('/' :: pr) ++
            (serializeQuery qu ++ serializeFrag fr)))).dropWhile isHostChar)) =
      some ⟨sc, ho, po, '/' :: pr, qu, fr⟩
  rw [htw.1, htw.2, hho]
  simp only [Bool.not_true, Bool.false_eq_true, if_false]
  exact parseAfterHost_ser sc ho po ('/' :: pr) qu fr hpo hpa hqu

/-- Round trip: parsing the serialisation of a wellformed record returns
exactly that record. -/
theorem parse_serializeCore (v : UrlC) (h : UrlWF v = true) :
    parseUrlCore (serializeCore v) = some v := by
  obtain ⟨sc, ho, po, pa, qu, fr⟩ := v
  simp only [UrlWF, Bool.and_eq_true] at h
  obtain ⟨⟨⟨⟨hsc, hho⟩, hpo⟩, hpa⟩, hqu⟩ := h
  unfold schemeWF at hsc
  simp only [Bool.and_eq_true] at hsc
  obtain ⟨⟨hscne, hscall⟩, hsclow⟩ := hsc
  unfold serializeCore parseUrlCore
  dsimp only
  simp only [List.append_assoc, List.cons_append]
  have htw := takeWhile_exact sc
    (':' :: '/' :: '/' :: (ho ++ (serializePort po ++ (pa ++
      (serializeQuery qu ++ serializeFrag fr)))))
    (List.all_eq_true.mp hscall) (Or.inr ⟨':', _, rfl, by decide⟩)
  rw [htw.1, htw.2, if_neg (of_decide_eq_true hscne), hsclow]
  simp only [Bool.not_true, Bool.false_eq_true, if_false]
  exact parseAuthority_ser sc ho po pa qu fr hho hpo hpa hqu

/-! ## Claim C1 -/

/-- Claim C1 (code bug): the rewrite pass classifies each stored file by
`getExtensionFromUrl` applied to its *relative path*; `new URL` throws on a
scheme-less path, the extension comes back empty, the category is `other`,
and so the pass reads back and rewrites **no** stored HTML or CSS file —
contrary to the claim that it rewrites every one. -/
theorem rewrite_pass_reads_back_no_file :
    getExtensionFromUrl "example.test/index.html" = "" ∧
    getMimeCategory (getExtensionFromUrl "example.test/index.html") = .other ∧
    getMimeCategory (getExtensionFromUrl "example.test/styles/site.css") = .other ∧
    rewritePassM engOracle0 engStateC1 =
      (engStateC1,
       [.rewritePassRun ["example.test/index.html", "example.test/styles/site.css"]]) := by
  refine ⟨rfl, rfl, rfl, ?_⟩
  rfl

/-! ## Claim C5 -/

/-- Claim C5 (counterexample): in a cancelled run the engine still invokes
the link-rewrite pass — `start()` awaits `rewriteAllLinks()` unconditionally
after the loop — so the pass is *not* skipped; the storage enumeration runs
and appears in the trace. -/
theorem cancelled_run_still_invokes_rewrite_pass :
    (startM engOracle0 10 engStateCancelled).2.1 = CrawlStatus.cancelled ∧
    EngAction.rewritePassRun ["example.test/index.html"]
      ∈ (startM engOracle0 10 engStateCancelled).2.2 := by
  constructor
  · rfl
  · exact List.mem_singleton.mpr rfl

/-- Claim C5 (amended): after `cancel()` the crawl loop terminates at once
and the run is reported cancelled with `success = false`; the rewrite pass
is still invoked (it enumerates storage), but it reads back and rewrites no
stored file, because every sanitised relative path is classified `other`. -/
theorem cancel_terminates_loop_and_reports_cancelled
    (O : EngOracle) (fuel : Nat) (st : EngState)
    (hab : st.aborted = true)
    (hfiles : ∀ f ∈ st.storage.files, ':' ∉ f.1.data) :
    startM O fuel st =
      ({ success := false, pagesProcessed := st.pagesProcessed,
         assetsProcessed := st.assetsProcessed,
         bytesDownloaded := st.storage.totalBytes, errors := st.errors },
       .cancelled, [.rewritePassRun (st.storage.files.map (·.1))]) := by
  unfold startM
  rw [crawlLoopM_aborted O fuel st hab]
  dsimp only
  rw [rewritePassM_noop O st hfiles]
  simp [hab]

/-- Witness for the amended C5 theorem at a concrete cancelled engine. -/
theorem cancel_terminates_loop_and_reports_cancelled_witness :
    startM engOracle0 10 engStateCancelled =
      ({ success := false,
         pagesProcessed := engStateCancelled.pagesProcessed,
         assetsProcessed := engStateCancelled.assetsProcessed,
         bytesDownloaded := engStateCancelled.storage.totalBytes,
         errors := engStateCancelled.errors },
       .cancelled,
       [.rewritePassRun (engStateCancelled.storage.files.map (·.1))]) :=
  cancel_terminates_loop_and_reports_cancelled engOracle0 10 engStateCancelled
    (by decide) (by decide)

/-! ## Claim C10 -/

/-- Claim C10: when the seed URL fails to canonicalise the queue constructor
silently builds an empty frontier, and `start()` terminates immediately:
no fetch is performed and the result is `success = true` with zero pages,
zero assets and an empty error list (the run completes). -/
theorem invalid_seed_builds_empty_frontier_and_trivial_success
    (O : EngOracle) (fuel : Nat) (seed : String) (opts : CrawlOptions)
    (h : normalizeUrl seed = none) :
    (UrlQueue.init seed opts).entries = [] ∧
    startM O fuel (initEngine seed opts) =
      ({ success := true, pagesProcessed := 0, assetsProcessed := 0,
         bytesDownloaded := 0, errors := [] },
       .complete, [.rewritePassRun []]) := by
  have hq : UrlQueue.init seed opts =
      { entries := [], pendingUrls := [], seedUrl := seed, options := opts } := by
    unfold UrlQueue.init
    rw [h]
  refine ⟨by rw [hq], ?_⟩
  unfold startM
  have h1 : (initEngine seed opts).queue.hasPending = false := by
    unfold initEngine
    rw [hq]
    rfl
  rw [crawlLoopM_idle O fuel _ h1]
  dsimp only
  have h2 : ∀ f ∈ (initEngine seed opts).storage.files, ':' ∉ f.1.data := by
    intro f hf
    simp [initEngine, initStorage] at hf
  rw [rewritePassM_noop O _ h2]
  dsimp only
  unfold initEngine
  rw [hq]
  rfl

/-- Witness for C10 at the concrete unparsable seed `"notaurl"`. -/
theorem invalid_seed_witness :
    (UrlQueue.init "notaurl" optsSameHost).entries = [] ∧
    startM engOracle0 25 (initEngine "notaurl" optsSameHost) =
      ({ success := true, pagesProcessed := 0, assetsProcessed := 0,
         bytesDownloaded := 0, errors := [] },
       .complete, [.rewritePassRun []]) :=
  invalid_seed_builds_empty_frontier_and_trivial_success engOracle0 25 "notaurl"
    optsSameHost (by decide)

/-! ## Claim C2 -/

/-- Claim C2: `addAsset` applies no scope predicate.  For every URL that
canonicalises, is not already present, satisfies the relaxed depth ceiling
`maxDepth + 5` and the page-count ceiling (unless `unlimitedMode`), and
whose file-type category is not disabled, `addAsset` returns `true` and
appends a pending entry — the statement carries no hypothesis about the
URL's host. -/
theorem addAsset_admits_regardless_of_host
    (q : UrlQueue) (url parentUrl : String) (depth : Nat) (n : String)
    (h1 : normalizeUrl url = some n)
    (h2 : q.hasEntry n = false)
    (h3 : q.options.unlimitedMode = false →
          depth ≤ q.options.maxDepth + 5 ∧ q.entries.length < q.options.maxPages)
    (h4 : UrlQueue.fileTypePasses q.options n = true) :
    q.addAsset url parentUrl depth =
      (true, q.push n { url := url, normalizedUrl := n, depth := depth,
                        parentUrl := some parentUrl, status := .pending,
                        retries := 0 }) := by
  unfold UrlQueue.addAsset
  rw [h1]
  by_cases hu : q.options.unlimitedMode = true
  · simp [h2, h4, hu]
  · have hu' : q.options.unlimitedMode = false := by
      cases hq : q.options.unlimitedMode
      · rfl
      · exact absurd hq hu
    obtain ⟨hd, hp⟩ := h3 hu'
    simp [h2, h4, hu', Nat.not_lt.mpr hd, Nat.not_le.mpr hp]

/-- Witness for C2: a cross-host image URL admitted into a same-host-scoped
frontier. -/
theorem addAsset_witness :
    normalizeUrl "https://b.test/logo.png" = some "https://b.test/logo.png" ∧
    queueSameHost.addAsset "https://b.test/logo.png" "https://a.test/" 1 =
      (true, queueSameHost.push "https://b.test/logo.png"
        { url := "https://b.test/logo.png",
          normalizedUrl := "https://b.test/logo.png", depth := 1,
          parentUrl := some "https://a.test/", status := .pending,
          retries := 0 }) :=
  ⟨by decide,
   addAsset_admits_regardless_of_host queueSameHost "https://b.test/logo.png"
     "https://a.test/" 1 "https://b.test/logo.png" (by decide) (by decide)
     (by decide) (by decide)⟩

/-! ## Claim C3 -/

/-- A blocked-range address is private for `isPrivateIP`. -/
theorem isPrivateIP_of_inBlockedRange (ip : String)
    (h : inBlockedRange ip = true) : isPrivateIP ip = true := by
  unfold isPrivateIP
  unfold inBlockedRange at h
  dsimp only
  split
  · rfl
  · split
    · rfl
    · next hAny =>
      simp only [Bool.or_eq_true] at h
      rcases h with hr | hr
      · exact absurd hr hAny
      · exact hr

/-- Claim C3: `validate` never returns Safe for a URL whose hostname is a
literal IPv4 address in a blocked range, nor for one whose hostname resolves
to at least one A record in a blocked range; both give Unsafe with a
reason. -/
theorem ssrf_blocks_private_literals_and_resolutions :
    (∀ (dns : String → Option (List String)) (protos : List String)
       (u : String) (parts : UrlC),
       parseUrlCore u.data = some parts →
       isIPv4Shape ⟨parts.host⟩ = true →
       inBlockedRange ⟨parts.host⟩ = true →
       (validateUrlForSSRF dns u protos).safe = false ∧
       (validateUrlForSSRF dns u protos).reason.isSome = true) ∧
    (∀ (dns : String → Option (List String)) (protos : List String)
       (u : String) (parts : UrlC) (addrs : List String) (ip : String),
       parseUrlCore u.data = some parts →
       isIPv4Shape ⟨parts.host⟩ = false →
       dns ⟨parts.host⟩ = some addrs →
       ip ∈ addrs →
       inBlockedRange ip = true →
       (validateUrlForSSRF dns u protos).safe = false ∧
       (validateUrlForSSRF dns u protos).reason.isSome = true) := by
  constructor
  · intro dns protos u parts h1 h2 h3
    unfold validateUrlForSSRF
    rw [h1]
    dsimp only
    rw [h2, isPrivateIP_of_inBlockedRange _ h3]
    split
    · exact ⟨rfl, rfl⟩
    · split
      · exact ⟨rfl, rfl⟩
      · exact ⟨rfl, rfl⟩
  · intro dns protos u parts addrs ip h1 h2 h4 h5 h6
    unfold validateUrlForSSRF
    rw [h1]
    dsimp only
    rw [h2, h4]
    dsimp only
    have hne : addrs.isEmpty = false := by
      cases addrs with
      | nil => cases h5
      | cons a rest => rfl
    cases hfind : addrs.find? (fun ip => isPrivateIP ip) with
    | none =>
      exfalso
      have := List.find?_eq_none.mp hfind ip h5
      rw [isPrivateIP_of_inBlockedRange ip h6] at this
      exact this rfl
    | some found =>
      rw [hne]
      split
      · exact ⟨rfl, rfl⟩
      · split
        · exact ⟨rfl, rfl⟩
        · exact ⟨rfl, rfl⟩

/-- Witness for C3: the literal `http://10.0.0.5/x` and the DNS-rebinding
seed `http://internal.test/` are both rejected. -/
theorem ssrf_blocks_witness :
    ((validateUrlForSSRF dnsTest "http://10.0.0.5/x" ["http", "https"]).safe = false ∧
     (validateUrlForSSRF dnsTest "http://10.0.0.5/x" ["http", "https"]).reason.isSome = true) ∧
    ((validateUrlForSSRF dnsTest "http://internal.test/" ["http", "https"]).safe = false ∧
     (validateUrlForSSRF dnsTest "http://internal.test/" ["http", "https"]).reason.isSome = true) :=
  ⟨ssrf_blocks_private_literals_and_resolutions.1 dnsTest ["http", "https"]
     "http://10.0.0.5/x" ⟨"http".data, "10.0.0.5".data, none, "/x".data, none, none⟩
     (by decide) (by decide) (by decide),
   ssrf_blocks_private_literals_and_resolutions.2 dnsTest ["http", "https"]
     "http://internal.test/" ⟨"http".data, "internal.test".data, none, "/".data, none, none⟩
     ["10.0.0.5"] "10.0.0.5" (by decide) (by decide) (by decide)
     (List.mem_singleton.mpr rfl) (by decide)⟩

/-! ## Claim C6 -/

/-- A write sequence from a state under the ceiling stays under the
ceiling. -/
theorem applyWrites_le (wb : String → Bool) (max : Nat) :
    ∀ (ops : List (String × Nat)) (st : StorageState),
    st.totalBytes ≤ max → (applyWrites wb max st ops).totalBytes ≤ max := by
  intro ops
  induction ops with
  | nil => intro st h; exact h
  | cons op rest ih =>
    intro st h
    obtain ⟨p, c⟩ := op
    show (applyWrites wb max st ((p, c) :: rest)).totalBytes ≤ max
    unfold applyWrites
    cases hw : writeFileM wb max st p c with
    | error e => exact ih st h
    | ok st' =>
      refine ih st' ?_
      unfold writeFileM at hw
      split at hw
      · cases hw
      · split at hw
        · cases hw
        · next hgt =>
          injection hw with h'
          rw [← h']
          dsimp only
          omega

/-- Claim C6: a write that would push the running byte total past
`maxTotalSizeBytes` throws and writes nothing, and consequently the
aggregate number of bytes accepted by Storage never exceeds the ceiling at
any point of any write sequence. -/
theorem storage_never_exceeds_ceiling :
    (∀ (wb : String → Bool) (max : Nat) (st : StorageState) (p : String) (c : Nat),
       st.totalBytes + c > max →
       writeFileM wb max st p c =
         (if wb p = false then
            Except.error ("Path traversal attempt detected: " ++ p)
          else Except.error "Total size limit exceeded")) ∧
    (∀ (wb : String → Bool) (max : Nat) (ops : List (String × Nat)),
       (applyWrites wb max initStorage ops).totalBytes ≤ max) := by
  constructor
  · intro wb max st p c hgt
    unfold writeFileM
    cases hwb : wb p with
    | false => simp [hwb]
    | true => simp [hwb, hgt]
  · intro wb max ops
    exact applyWrites_le wb max ops initStorage (Nat.zero_le max)

/-- Witness for C6: a concrete overfull write is rejected, and a concrete
write sequence stays under a 100-byte ceiling. -/
theorem storage_ceiling_witness :
    writeFileM (fun _ => true) 100
      { files := [("a", 60)], filesWritten := 1, totalBytes := 60 } "b" 41 =
      Except.error "Total size limit exceeded" ∧
    (applyWrites (fun _ => true) 100 initStorage
      [("a", 60), ("b", 41), ("c", 40)]).totalBytes ≤ 100 :=
  ⟨by
    have h := storage_never_exceeds_ceiling.1 (fun _ => true) 100
      { files := [("a", 60)], filesWritten := 1, totalBytes := 60 } "b" 41
      (by decide)
    simpa using h,
   storage_never_exceeds_ceiling.2 (fun _ => true) 100 [("a", 60), ("b", 41), ("c", 40)]⟩

/-! ## Claim C4 -/

/-- The file-type tail of `add` inserts when the filter passes. -/
theorem addFileTypeTail_pass (q : UrlQueue) (url parentUrl : String)
    (depth : Nat) (n : String) (h : UrlQueue.fileTypePasses q.options n = true) :
    UrlQueue.addFileTypeTail q url parentUrl depth n =
      (true, q.push n { url := url, normalizedUrl := n, depth := depth,
                        parentUrl := some parentUrl, status := .pending,
                        retries := 0 }) := by
  unfold UrlQueue.addFileTypeTail
  rw [h]
  rfl

/-- The exclude tail of `add` inserts when exclude and file-type checks
pass. -/
theorem addExcludeTail_pass (q : UrlQueue) (url parentUrl : String)
    (depth : Nat) (n : String)
    (h5 : excludePass q.options n = true)
    (h6 : UrlQueue.fileTypePasses q.options n = true) :
    UrlQueue.addExcludeTail q url parentUrl depth n =
      (true, q.push n { url := url, normalizedUrl := n, depth := depth,
                        parentUrl := some parentUrl, status := .pending,
                        retries := 0 }) := by
  unfold UrlQueue.addExcludeTail
  unfold excludePass at h5
  cases hep : q.options.excludePaths with
  | none =>
    dsimp only
    exact addFileTypeTail_pass q url parentUrl depth n h6
  | some pats =>
    rw [hep] at h5
    dsimp only at h5
    rw [Bool.not_eq_true'] at h5
    dsimp only
    rw [h5]
    simp only [Bool.false_eq_true, if_false]
    exact addFileTypeTail_pass q url parentUrl depth n h6

/-- The include tail of `add` inserts when include, exclude and file-type
checks pass. -/
theorem addChecksTail_pass (q : UrlQueue) (url parentUrl : String)
    (depth : Nat) (n : String)
    (h4 : includePass q.options n = true)
    (h5 : excludePass q.options n = true)
    (h6 : UrlQueue.fileTypePasses q.options n = true) :
    UrlQueue.addChecksTail q url parentUrl depth n =
      (true, q.push n { url := url, normalizedUrl := n, depth := depth,
                        parentUrl := some parentUrl, status := .pending,
                        retries := 0 }) := by
  unfold UrlQueue.addChecksTail
  unfold includePass at h4
  cases hip : q.options.includePaths with
  | none =>
    dsimp only
    exact addExcludeTail_pass q url parentUrl depth n h5 h6
  | some pats =>
    rw [hip] at h4
    dsimp only at h4
    have hcond : (decide (pats.length > 0) &&
        !pats.any fun pattern => matchesPattern n pattern) = false := by
      rcases Bool.or_eq_true _ _ ▸ h4 with hl | hr
      · rw [Bool.not_eq_true'] at hl
        rw [hl]
        rfl
      · rw [hr]
        simp
    dsimp only
    rw [hcond]
    simp only [Bool.false_eq_true, if_false]
    exact addExcludeTail_pass q url parentUrl depth n h5 h6

/-- Claim C4 (counterexample): with scope = custom, seed `https://a.test/`
and customDomains `["b.test"]`, the page URL `https://b.test/x`
canonicalises, is new, is within all limits, passes the pattern and
file-type checks, and its hostname equals the allow-list entry `b.test` —
yet `add` rejects it, because the code first applies the same-domain scope
predicate against the seed.  The customDomains list is therefore not the
admission predicate. -/
theorem custom_scope_not_sole_predicate :
    normalizeUrl "https://b.test/x" = some "https://b.test/x" ∧
    queueCustomB.hasEntry "https://b.test/x" = false ∧
    queueCustomB.options.scope = .custom ∧
    queueCustomB.options.customDomains = some ["b.test"] ∧
    UrlQueue.hostOf "https://b.test/x" = "b.test" ∧
    (1 ≤ queueCustomB.options.maxDepth ∧
     queueCustomB.entries.length < queueCustomB.options.maxPages) ∧
    includePass queueCustomB.options "https://b.test/x" = true ∧
    excludePass queueCustomB.options "https://b.test/x" = true ∧
    UrlQueue.fileTypePasses queueCustomB.options "https://b.test/x" = true ∧
    queueCustomB.add "https://b.test/x" "https://a.test/" 1 = (false, queueCustomB) := by
  refine ⟨by decide, by decide, rfl, rfl, by decide, by decide, by decide,
          by decide, by decide, ?_⟩
  decide

/-- Claim C4 (amended): with scope = custom, a page URL passing
canonicalisation, deduplication, the limits, the patterns and the file-type
filter is admitted iff it is in same-domain scope relative to the seed AND —
when customDomains is present — its hostname equals an entry or is a
subdomain of one; with customDomains absent, the host side reduces to the
same-domain check alone. -/
theorem addPage_custom_scope_characterisation
    (q : UrlQueue) (url parentUrl : String) (depth : Nat) (n : String)
    (hscope : q.options.scope = .custom)
    (h1 : normalizeUrl url = some n)
    (h2 : q.hasEntry n = false)
    (h3 : q.options.unlimitedMode = false →
          depth ≤ q.options.maxDepth ∧ q.entries.length < q.options.maxPages)
    (h4 : includePass q.options n = true)
    (h5 : excludePass q.options n = true)
    (h6 : UrlQueue.fileTypePasses q.options n = true) :
    (q.add url parentUrl depth).1 = true ↔
      (isInScope n q.seedUrl .sameDomain = true ∧
       customDomainsOk q.options n = true) := by
  unfold UrlQueue.add
  rw [h1]
  dsimp only
  have hlim1 : (!q.options.unlimitedMode && decide (depth > q.options.maxDepth)) = false := by
    cases hu : q.options.unlimitedMode
    · have := (h3 hu).1
      simp [Nat.not_lt.mpr this]
    · rfl
  have hlim2 : (!q.options.unlimitedMode &&
      decide (q.entries.length ≥ q.options.maxPages)) = false := by
    cases hu : q.options.unlimitedMode
    · have := (h3 hu).2
      simp [Nat.not_le.mpr this]
    · rfl
  rw [h2, hlim1, hlim2]
  simp only [Bool.false_eq_true, if_false]
  rw [hscope]
  cases hsc : isInScope n q.seedUrl .sameDomain with
  | false => simp [hsc]
  | true =>
    unfold customDomainsOk
    cases hcd : q.options.customDomains with
    | none => simp [hsc, addChecksTail_pass q url parentUrl depth n h4 h5 h6]
    | some ds =>
      cases hany : ds.any fun d => UrlQueue.hostOf n == d ||
          listEndsWith (UrlQueue.hostOf n).data ('.' :: d.data) with
      | false => simp [hsc, hany]
      | true => simp [hsc, hany, addChecksTail_pass q url parentUrl depth n h4 h5 h6]

/-- Witness for the amended C4 theorem: with allow-list `["a.test"]`, the
subdomain page `https://sub.a.test/x` (same-domain with the seed and a
subdomain of the entry) is admitted. -/
theorem addPage_custom_scope_witness :
    (queueCustomA.add "https://sub.a.test/x" "https://a.test/" 1).1 = true :=
  (addPage_custom_scope_characterisation queueCustomA "https://sub.a.test/x"
    "https://a.test/" 1 "https://sub.a.test/x" rfl (by decide) (by decide)
    (by decide) (by decide) (by decide) (by decide)).mpr ⟨by decide, by decide⟩

/-! ## Claim C7 -/

/-- The synchronisation invariant of the three registry structures:
`pathToUrl` is the transpose of `urlToPath`, `usedPaths` is exactly its
range, and both keys and values are duplicate-free. -/
def RegSynced (st : RegState) : Prop :=
  st.pathToUrl = st.urlToPath.map (fun e => (e.2, e.1)) ∧
  st.usedPaths = st.urlToPath.map Prod.snd ∧
  (st.urlToPath.map Prod.fst).Nodup ∧
  (st.urlToPath.map Prod.snd).Nodup

/-- A failing association lookup means the key is absent. -/
theorem assocFind_none_not_mem (l : List (String × String)) (k : String)
    (h : assocFind l k = none) : k ∉ l.map Prod.fst := by
  intro hk
  obtain ⟨e, he, hek⟩ := List.mem_map.mp hk
  have := List.find?_eq_none.mp (Option.map_eq_none.mp h) e he
  rw [hek] at this
  simp at this

/-- In a list whose second components are duplicate-free, a shared second
component forces equal pairs. -/
theorem snd_nodup_inj {l : List (String × String)}
    (h : (l.map Prod.snd).Nodup) {a b : String × String}
    (ha : a ∈ l) (hb : b ∈ l) (hab : a.2 = b.2) : a = b := by
  induction l with
  | nil => cases ha
  | cons x xs ih =>
    rw [List.map_cons, List.nodup_cons] at h
    rcases List.mem_cons.mp ha with rfl | ha' <;>
      rcases List.mem_cons.mp hb with rfl | hb'
    · rfl
    · exact absurd (hab ▸ List.mem_map_of_mem Prod.snd hb') h.1
    · exact absurd (hab ▸ List.mem_map_of_mem Prod.snd ha') h.1
    · exact ih h.2 ha' hb'

/-- One fresh `registerUrl` call preserves the synchronisation invariant and
extends `urlToPath` (a hit or a throw leaves it unchanged). -/
theorem registerUrl_preserves (gen fb : String → String) (st : RegState)
    (u : String) (hs : RegSynced st) (hf : stepFresh gen fb st u = true) :
    RegSynced (registerUrl gen fb st u).2 ∧
    st.urlToPath <+: (registerUrl gen fb st u).2.urlToPath := by
  unfold registerUrl
  unfold stepFresh at hf
  cases hn : normalizeUrl u with
  | none => exact ⟨hs, List.prefix_refl _⟩
  | some n =>
    rw [hn] at hf
    dsimp only at hf ⊢
    cases hfind : assocFind st.urlToPath n with
    | some existing =>
      dsimp only
      exact ⟨hs, List.prefix_refl _⟩
    | none =>
      rw [hfind] at hf
      dsimp only at hf ⊢
      obtain ⟨hp, hu, hkn, hvn⟩ := hs
      set p := ensureUniquePath fb st.usedPaths (gen u) with hpdef
      have hpfresh : p ∉ st.usedPaths := by
        intro hmem
        have hc : st.usedPaths.contains p = true := List.elem_iff.mpr hmem
        rw [Bool.not_eq_true'] at hf
        rw [hf] at hc
        cases hc
      refine ⟨⟨?_, ?_, ?_, ?_⟩, List.prefix_append _ _⟩
      · rw [hp, List.map_append]
        rfl
      · rw [hu, List.map_append]
        rfl
      · rw [List.map_append]
        simp only [List.map_cons, List.map_nil]
        rw [List.nodup_append]
        refine ⟨hkn, List.nodup_singleton _, ?_⟩
        intro a ha hb
        rw [List.mem_singleton] at hb
        subst hb
        exact assocFind_none_not_mem st.urlToPath a hfind ha
      · rw [List.map_append]
        simp only [List.map_cons, List.map_nil]
        rw [List.nodup_append]
        refine ⟨hvn, List.nodup_singleton _, ?_⟩
        intro a ha hb
        rw [List.mem_singleton] at hb
        subst hb
        exact hpfresh (hu ▸ ha)

/-- A fresh run preserves the invariant and only extends `urlToPath`. -/
theorem registerRun_preserves (gen fb : String → String) (urls : List String) :
    ∀ st : RegState, RegSynced st → runFresh gen fb st urls = true →
    RegSynced (registerRun gen fb st urls) ∧
    st.urlToPath <+: (registerRun gen fb st urls).urlToPath := by
  induction urls with
  | nil => intro st hs _; exact ⟨hs, List.prefix_refl _⟩
  | cons u us ih =>
    intro st hs hr
    unfold runFresh at hr
    rw [Bool.and_eq_true] at hr
    have h1 := registerUrl_preserves gen fb st u hs hr.1
    have h2 := ih (registerUrl gen fb st u).2 h1.1 hr.2
    exact ⟨h2.1, h1.2.trans h2.2⟩

/-- Claim C7: across any sequence of `registerUrl` calls (with the MD5
safety fallback fresh when it fires, which the source trusts), the registry
keeps its three structures synchronised; re-registering a registered
canonical URL returns the first path and changes nothing; two distinct
canonical URLs never share a local path; and a registered pair survives any
further calls, its path never remapped to a different canonical URL. -/
theorem registry_invariants (gen fb : String → String) (urls : List String)
    (h : runFresh gen fb emptyReg urls = true) :
    (RegSynced (registerRun gen fb emptyReg urls)) ∧
    (∀ u n p, normalizeUrl u = some n →
      assocFind (registerRun gen fb emptyReg urls).urlToPath n = some p →
      registerUrl gen fb (registerRun gen fb emptyReg urls) u =
        (some p, registerRun gen fb emptyReg urls)) ∧
    (∀ n₁ n₂ p, (n₁, p) ∈ (registerRun gen fb emptyReg urls).urlToPath →
      (n₂, p) ∈ (registerRun gen fb emptyReg urls).urlToPath → n₁ = n₂) ∧
    (∀ more, runFresh gen fb (registerRun gen fb emptyReg urls) more = true →
      ∀ n p, (n, p) ∈ (registerRun gen fb emptyReg urls).urlToPath →
        (n, p) ∈ (registerRun gen fb (registerRun gen fb emptyReg urls) more).urlToPath ∧
        ∀ n', (n', p) ∈ (registerRun gen fb (registerRun gen fb emptyReg urls) more).urlToPath →
          n' = n) := by
  have hsync : RegSynced emptyReg := ⟨rfl, rfl, List.nodup_nil, List.nodup_nil⟩
  have hrun := registerRun_preserves gen fb urls emptyReg hsync h
  refine ⟨hrun.1, ?_, ?_, ?_⟩
  · intro u n p h1 h2
    unfold registerUrl
    rw [h1]
    dsimp only
    rw [h2]
  · intro n₁ n₂ p h1 h2
    have := snd_nodup_inj hrun.1.2.2.2 h1 h2 rfl
    injection this with h' _
  · intro more hm n p hmem
    have hext := registerRun_preserves gen fb more _ hrun.1 hm
    refine ⟨hext.2.subset hmem, ?_⟩
    intro n' hmem'
    have := snd_nodup_inj hext.1.2.2.2 hmem' (hext.2.subset hmem) rfl
    injection this with h' _

/-- Witness for C7: two registrations, then a repeated registration of the
first canonical URL returns the originally assigned path and leaves the
registry untouched. -/
theorem registry_invariants_witness :
    registerUrl (fun _ => "a.test/index.html") (fun _ => "fb")
      (registerRun (fun _ => "a.test/index.html") (fun _ => "fb") emptyReg
        ["https://a.test/", "https://a.test/x"]) "https://a.test/" =
    (some "a.test/index.html",
     registerRun (fun _ => "a.test/index.html") (fun _ => "fb") emptyReg
       ["https://a.test/", "https://a.test/x"]) :=
  (registry_invariants (fun _ => "a.test/index.html") (fun _ => "fb")
    ["https://a.test/", "https://a.test/x"] (by decide)).2.1
    "https://a.test/" "https://a.test/" "a.test/index.html" (by decide) (by decide)

/-! ## Claim C8 -/

/-- One pass of the redirect loop against a 403 server: a retry signal while
attempts remain, otherwise the 403 response itself exits the loop. -/
theorem redirectLoop_403 (O : NetOracle) (opts : FetchOptions) (url : String)
    (a n : Nat) (hst : (O.resp url a).status = 403) :
    redirectLoop O opts url a 5 (n + 1) url [] 0 =
      (if a < 5 then .retryAttempt 2000 true
       else .response (O.resp url a) url []) := by
  unfold redirectLoop
  dsimp only
  rw [hst]
  by_cases ha : a < 5
  · simp [ha]
  · simp [ha]

/-- Against an all-403 server, the attempt counter runs to five with a UA
rotation and a 2-second base delay per retry, and the fifth 403 response is
returned as a **success** outcome. -/
theorem fetchWithRetry_403_run (O : NetOracle) (opts : FetchOptions) (url : String)
    (hssrf : (validateUrlForSSRF O.dns url opts.allowedProtocols).safe = true)
    (hnet : ∀ a, O.netErr url a = none)
    (hst : ∀ a, (O.resp url a).status = 403)
    (hcl : (O.resp url 5).contentLength.getD 0 ≤ opts.maxFileSize)
    (hbl : (O.resp url 5).bodyLen ≤ opts.maxFileSize) :
    ∀ (k a : Nat) (stats : FetchStats), a + k = 5 →
    fetchWithRetry O opts url (k + 1) a stats =
      (.success { url := url, finalUrl := url, status := 403,
                  contentType := if (O.resp url 5).contentType = ""
                                 then "application/octet-stream"
                                 else (O.resp url 5).contentType,
                  contentLength := (O.resp url 5).bodyLen,
                  isRedirect := false, redirectChain := [] },
       { uaRotations := stats.uaRotations + k,
         delaysMs := stats.delaysMs ++ List.replicate k 2000,
         attempts := stats.attempts + (k + 1) }) := by
  intro k
  induction k with
  | zero =>
    intro a stats hak
    have ha5 : a = 5 := by omega
    subst ha5
    unfold fetchWithRetry
    dsimp only
    rw [hssrf]
    simp only [Bool.not_true, Bool.false_eq_true, if_false]
    rw [hnet 5]
    have hfu : opts.maxRedirects + 2 = (opts.maxRedirects + 1) + 1 := rfl
    rw [hfu, redirectLoop_403 O opts url 5 (opts.maxRedirects + 1) (hst 5)]
    simp only [Nat.lt_irrefl, if_false]
    rw [if_neg (Nat.not_lt.mpr hcl), if_neg (Nat.not_lt.mpr hbl), hst 5]
    simp
  | succ k ih =>
    intro a stats hak
    have ha : a < 5 := by omega
    unfold fetchWithRetry
    dsimp only
    rw [hssrf]
    simp only [Bool.not_true, Bool.false_eq_true, if_false]
    rw [hnet a]
    have hfu : opts.maxRedirects + 2 = (opts.maxRedirects + 1) + 1 := rfl
    rw [hfu, redirectLoop_403 O opts url a (opts.maxRedirects + 1) (hst a)]
    rw [if_pos ha]
    dsimp only
    rw [ih (a + 1) _ (by omega)]
    dsimp only
    simp only [if_true]
    have h1 : stats.uaRotations + 1 + k = stats.uaRotations + (k + 1) := by omega
    have h2 : stats.attempts + 1 + (k + 1) = stats.attempts + (k + 1 + 1) := by omega
    have h3 : stats.delaysMs ++ [2000] ++ List.replicate k 2000 =
        stats.delaysMs ++ List.replicate (k + 1) 2000 := by
      rw [List.append_assoc]
      rfl
    rw [h1, h2, h3]

/-- Claim C8 (counterexample): a request answered 403 on all five attempts
does **not** end in a per-URL failure — the 403 branch has no exhaustion
return, so the fifth response falls through and is returned as a success
record with status 403 (which the engine then treats as fetched content). -/
theorem http403_exhaustion_returns_success_record :
    fetchM net403 fetchOpts0 "http://h.test/" =
      (.success { url := "http://h.test/", finalUrl := "http://h.test/",
                  status := 403, contentType := "text/html",
                  contentLength := 10, isRedirect := false, redirectChain := [] },
       { uaRotations := 4, delaysMs := [2000, 2000, 2000, 2000], attempts := 5 }) ∧
    (fetchM net403 fetchOpts0 "http://h.test/").1.isSuccess = true := by
  constructor
  · rfl
  · rfl

/-- Claim C8 (amended): a request answered 403 on every attempt is retried
up to five attempts, with a User-Agent rotation and a jittered delay of base
2000 ms before each of the four retries; on exhaustion the fetcher returns
the 403 response as a *success* FetchOutcome (status 403), not a per-URL
failure. -/
theorem fetch403_retries_then_returns_success
    (O : NetOracle) (opts : FetchOptions) (url : String)
    (hssrf : (validateUrlForSSRF O.dns url opts.allowedProtocols).safe = true)
    (hnet : ∀ a, O.netErr url a = none)
    (hst : ∀ a, (O.resp url a).status = 403)
    (hcl : (O.resp url 5).contentLength.getD 0 ≤ opts.maxFileSize)
    (hbl : (O.resp url 5).bodyLen ≤ opts.maxFileSize) :
    fetchM O opts url =
      (.success { url := url, finalUrl := url, status := 403,
                  contentType := if (O.resp url 5).contentType = ""
                                 then "application/octet-stream"
                                 else (O.resp url 5).contentType,
                  contentLength := (O.resp url 5).bodyLen,
                  isRedirect := false, redirectChain := [] },
       { uaRotations := 4, delaysMs := [2000, 2000, 2000, 2000], attempts := 5 }) := by
  have h := fetchWithRetry_403_run O opts url hssrf hnet hst hcl hbl 4 1
    {} (by omega)
  exact h

/-- Witness for the amended C8 theorem at the concrete all-403 oracle. -/
theorem fetch403_witness :
    fetchM net403 fetchOpts0 "http://h2.test/" =
      (.success { url := "http://h2.test/", finalUrl := "http://h2.test/",
                  status := 403,
                  contentType := if (net403.resp "http://h2.test/" 5).contentType = ""
                                 then "application/octet-stream"
                                 else (net403.resp "http://h2.test/" 5).contentType,
                  contentLength := (net403.resp "http://h2.test/" 5).bodyLen,
                  isRedirect := false, redirectChain := [] },
       { uaRotations := 4, delaysMs := [2000, 2000, 2000, 2000], attempts := 5 }) :=
  fetch403_retries_then_returns_success net403 fetchOpts0 "http://h2.test/"
    (by decide) (fun _ => rfl) (fun _ => rfl) (by decide) (by decide)

/-! ## Claim C9 -/

/-- Claim C9 (counterexample): `canonicalise` is not idempotent.  On
`http://example.com/a//` it strips a single trailing slash and returns
`http://example.com/a/`; canonicalising that result strips a further slash
and returns `http://example.com/a`, a different string, so
`canonicalise(canonicalise(u)) ≠ canonicalise(u)`. -/
theorem canonicalise_not_idempotent :
    normalizeUrl "http://example.com/a//" = some "http://example.com/a/" ∧
    normalizeUrl "http://example.com/a/" = some "http://example.com/a" ∧
    ("http://example.com/a" : String) ≠ "http://example.com/a/" :=
  ⟨rfl, rfl, by decide⟩

/-- Claim C9 (amended): `canonicalise` is idempotent on every URL of the
modelled grammar whose parsed path does not end in a double slash: if the
input parses and its path has no `//` tail, canonicalise succeeds and
canonicalising its output returns the output unchanged.  (Paths ending in
`//` are the only failure: the single trailing-slash strip
`url.pathname.slice(0, -1)` leaves a path that still ends in `/`, which a
second pass strips again.) -/
theorem canonicalise_idempotent_unless_double_slash (s : String) (u : UrlC)
    (hp : parseUrlCore s.data = some u)
    (hds : doubleSlashTail u.path = false) :
    ∃ t, normalizeUrl s = some t ∧ normalizeUrl t = some t := by
  have hwf := parseUrlCore_wf s.data u hp
  refine ⟨⟨serializeCore (normParts u)⟩, ?_, ?_⟩
  · unfold normalizeUrl
    rw [hp]
    rfl
  · unfold normalizeUrl
    have hdata : (⟨serializeCore (normParts u)⟩ : String).data
        = serializeCore (normParts u) := rfl
    rw [hdata, parse_serializeCore _ (UrlWF_normParts u hwf), Option.map_some']
    rw [normParts_idem u hwf hds]

/-- Witness for the amended C9 theorem at a concrete URL (with an unsorted
query, exercising the sort step). -/
theorem canonicalise_idempotent_witness :
    ∃ t, normalizeUrl "http://example.com/a?b=2&a=1" = some t ∧
      normalizeUrl t = some t :=
  canonicalise_idempotent_unless_double_slash "http://example.com/a?b=2&a=1"
    ⟨"http".data, "example.com".data, none, "/a".data, some "b=2&a=1".data, none⟩
    (by decide) (by decide)

end Crawl
